import Mathlib

/-!
Verification development for the reflector price-feed oracle
(`src/oracle/src/{mapping,prices,price_oracle,protocol,assets,timestamps}.rs`).

Shallow-embedding conventions:

* Soroban `Bytes` is a `List Nat` whose entries are bytes (each `< 256` for all
  values the code constructs); `Bytes.get` returning `Option<u8>` is `List.get?`
  (`getD _ 0` models `unwrap_or_default`).
* `U256` values are `Nat` taken modulo `2 ^ 256` at the shifting operation,
  exactly where the source's `U256::shl` discards high bits.
* `u64` quantities (timestamps, resolutions) are modeled as `Nat`; every
  subtraction the source performs on them is behind a guard making it
  non-negative, so no wrap-around can occur at these sites.  The one unguarded
  machine subtraction in the sources is the `u32` offset computation in
  `check_history_updated`, which is modeled with explicit wrap-around
  modulo `2 ^ 32` (release-mode wrapping semantics).
* `i128` prices are `Int`; `/` on `i128` is `Int.tdiv` (truncation toward
  zero, Rust semantics), and an integer division aborts in every build profile
  on a zero divisor or on the `i128::MIN / -1` overflow.  The unguarded `i128`
  multiplications in `fixed_div_floor` follow the same release-mode wrapping
  convention as the `u32` subtraction above: products are wrapped into the
  `i128` range (two's complement, modulo `2 ^ 128`, `wrap128`).  Elsewhere the
  values in scope are far below the bound and `Int`/`Nat` are used directly.
* A Rust contract-level abort (`panic!`, `panic_with_error!`, out-of-bounds
  `get_unchecked`, `checked_add(..).unwrap`, division by zero) is `none` /
  `Except.error`: the whole invocation's tentative state is discarded.
* Host storage is explicit record state: each storage key of the contract is
  one field of `OracleState`; `storage().set` on a map-like key space is
  modeled as prepending to an association list (lookup takes the newest
  binding, which is exactly overwrite semantics for `find?`-based lookup).
-/

namespace Mapping

/-- Soroban `Bytes`: a byte string. -/
abbrev Bytes := List Nat

/-- `RECORD_SIZE`: each asset's history slice occupies 32 bytes. -/
def RECORD_SIZE : Nat := 32

/-- `2 ^ 256`, the modulus of `U256` arithmetic. -/
def U256_LIMIT : Nat := 2 ^ 256

/-- `2 ^ 32`, the modulus of `u32` arithmetic. -/
def U32_LIMIT : Nat := 2 ^ 32

/-- Wrapping `u32` coercion. -/
def u32Wrap (x : Nat) : Nat := x % U32_LIMIT

/-- `U256::to_be_bytes`: 32 bytes, big-endian. -/
def u256ToBeBytes (x : Nat) : Bytes :=
  (List.range 32).map (fun b => x / 2 ^ (8 * (31 - b)) % 256)

/-- `U256::from_be_bytes` applied to a 32-byte slice. -/
def u256FromBeBytes (l : Bytes) : Nat :=
  l.foldl (fun acc b => acc * 256 + b) 0

/-- `Bytes::slice(lo..hi)`. -/
def bytesSlice (l : Bytes) (lo hi : Nat) : Bytes := (l.drop lo).take (hi - lo)

/-- The byte-replacement loop of `update_history_mask`
(`for i in 0..RECORD_SIZE { history_mask.set(from + i, encoded.get(i).unwrap()) }`),
unrolled from the top: `setLoop hist lo enc k` performs the first `k`
iterations. The full loop is `setLoop hist lo enc RECORD_SIZE`. -/
def setLoop (hist : Bytes) (lo : Nat) (enc : Bytes) : Nat → Bytes
  | 0 => hist
  | k + 1 => (setLoop hist lo enc k).set (lo + k) (enc.getD k 0)

/-- Body of the per-asset iteration of `mapping::update_history_mask`:
locate the asset's 32-byte slice, decode, shift left by one bit (evicting the
oldest period), set the low bit if `price > 0`, re-encode and write back
(appending when the asset had no slice yet). -/
def foldAssetMask (hist : Bytes) (assetIndex : Nat) (price : Int) : Bytes :=
  let lo := assetIndex * RECORD_SIZE
  let hi := lo + RECORD_SIZE
  let bitmask :=
    if hi ≤ hist.length then u256FromBeBytes (bytesSlice hist lo hi) else 0
  let bitmask := bitmask * 2 % U256_LIMIT
  let bitmask := if price > 0 then bitmask + 1 else bitmask
  let encoded := u256ToBeBytes bitmask
  if hist.length ≤ lo then hist ++ encoded else setLoop hist lo encoded RECORD_SIZE

/-- The enumeration loop of `mapping::update_history_mask`:
`updates.iter().enumerate()` starting from index `idx`. -/
def updateHistoryMaskGo (hist : Bytes) (idx : Nat) : List Int → Bytes
  | [] => hist
  | price :: rest => updateHistoryMaskGo (foldAssetMask hist idx price) (idx + 1) rest

/-- `mapping::update_history_mask(history_mask, updates)`. -/
def update_history_mask (hist : Bytes) (updates : List Int) : Bytes :=
  updateHistoryMaskGo hist 0 updates

/-- `mapping::check_history_updated(history_mask, asset_index, period)`.
The byte offset `asset_index * RECORD_SIZE + (RECORD_SIZE - 1 - period / 8)`
is `u32` arithmetic; the inner subtraction underflows for `period ≥ 256` and
is modeled with explicit wrap-around modulo `2 ^ 32`. -/
def check_history_updated (hist : Bytes) (assetIndex period : Nat) : Bool :=
  let lo := u32Wrap (u32Wrap (assetIndex * RECORD_SIZE) +
    u32Wrap (RECORD_SIZE - 1 + U32_LIMIT - u32Wrap (period / 8)))
  let bit := 2 ^ (period % 8)
  let bytemask := hist.getD lo 0
  bytemask &&& bit == bit

/-- `mapping::resolve_period_update_mask_position(asset_index)`. -/
def resolve_period_update_mask_position (assetIndex : Nat) : Nat × Nat :=
  (assetIndex / 8, 2 ^ (assetIndex % 8))

/-- `mapping::check_period_updated(period_mask, asset_index)`. -/
def check_period_updated (periodMask : Bytes) (assetIndex : Nat) : Bool :=
  let pos := resolve_period_update_mask_position assetIndex
  periodMask.getD pos.1 0 &&& pos.2 == pos.2

end Mapping

/-- `PriceData`: asset price at a specific timestamp (seconds). -/
structure PriceData where
  price : Int
  timestamp : Nat
deriving DecidableEq, Repr

/-- `PriceUpdate`: prices for the updated assets plus the 256-bit position mask. -/
structure PriceUpdate where
  prices : List Int
  mask : Mapping.Bytes
deriving DecidableEq, Repr

/-- `Asset`: on-chain contract address or opaque symbol, abstracted to `Nat` payloads. -/
inductive Asset where
  | stellar (address : Nat)
  | other (symbol : Nat)
deriving DecidableEq, Repr

/-- Contract errors (`types::Error`), extended with the two untyped abort causes
the embedding distinguishes: `checked_add(..).unwrap` overflow and
out-of-bounds `get_unchecked`. -/
inductive ContractError where
  | alreadyInitialized
  | unauthorized
  | assetMissing
  | assetAlreadyExists
  | invalidConfigVersion
  | invalidTimestamp
  | assetLimitExceeded
  | invalidAmount
  | invalidPricesUpdate
  | arithmeticOverflow
  | vectorOutOfBounds
deriving DecidableEq, Repr

/-- The oracle's whole storage state, one field per storage key, plus the
current ledger clock (`e.ledger().timestamp()`, in seconds). -/
structure OracleState where
  ledgerSeconds : Nat
  resolution : Nat
  cacheSize : Nat
  retentionPeriod : Nat
  protocolVersion : Option Nat
  protocolUpdateTs : Nat
  lastTimestamp : Nat
  history : Mapping.Bytes
  cache : Option (List (Nat × PriceUpdate))
  tempRecords : List (Nat × PriceUpdate)
  tempV1 : List (Nat × Int)
  assetIndexMap : List (Asset × Nat)
  assetsList : List Asset
  expiration : List Nat
  feeConfigSet : Bool
deriving DecidableEq, Repr

/-- Lookup in an association list keyed by `Nat` (storage `get`). -/
def lookupAssoc {α : Type} (m : List (Nat × α)) (k : Nat) : Option α :=
  (m.find? (fun p => p.1 == k)).map (fun p => p.2)

/-- Storage `set` on a `Nat`-keyed key space: prepend, so lookup sees the
newest binding (overwrite semantics). -/
def setAssoc {α : Type} (m : List (Nat × α)) (k : Nat) (v : α) : List (Nat × α) :=
  (k, v) :: m

namespace Timestamps

/-- `timestamps::normalize(value)`: truncate to the resolution boundary. -/
def normalize (resolution value : Nat) : Nat :=
  if value = 0 ∨ resolution = 0 then 0 else value / resolution * resolution

/-- `timestamps::is_valid(value)`. -/
def is_valid (resolution value : Nat) : Bool :=
  value == normalize resolution value

/-- `timestamps::days_to_milliseconds(days)`. -/
def days_to_milliseconds (days : Nat) : Nat :=
  days * 24 * 60 * 60 * 1000

/-- `timestamps::ledger_timestamp(e)`: ledger seconds converted to milliseconds. -/
def ledger_timestamp (st : OracleState) : Nat :=
  st.ledgerSeconds * 1000

end Timestamps

namespace Protocol

/-- `protocol::CURRENT_PROTOCOL`. -/
def CURRENT_PROTOCOL : Nat := 2

/-- `protocol::get_protocol_version`: stored version, defaulting to 1. -/
def get_protocol_version (st : OracleState) : Nat :=
  st.protocolVersion.getD 1

/-- `protocol::set_protocol_version`. -/
def set_protocol_version (st : OracleState) (protocol : Nat) : OracleState :=
  { st with protocolVersion := some protocol }

/-- `protocol::set_protocol_upgrade_timestamp`. -/
def set_protocol_upgrade_timestamp (st : OracleState) (timestamp : Nat) : OracleState :=
  { st with protocolUpdateTs := timestamp }

/-- `protocol::schedule_update`: lazily record / mature the pending upgrade.
Returns the answer together with the possibly-updated state. -/
def schedule_update (st : OracleState) : Bool × OracleState :=
  let ledgerTimestamp := Timestamps.ledger_timestamp st
  let scheduledUpdateTs := st.protocolUpdateTs
  if scheduledUpdateTs = 0 then
    (false, set_protocol_upgrade_timestamp st ledgerTimestamp)
  else if scheduledUpdateTs + Timestamps.days_to_milliseconds 1 < ledgerTimestamp then
    (true, set_protocol_upgrade_timestamp (set_protocol_version st CURRENT_PROTOCOL) 0)
  else
    (false, st)

/-- `protocol::at_latest_protocol_version`. -/
def at_latest_protocol_version (st : OracleState) : Bool × OracleState :=
  if get_protocol_version st = CURRENT_PROTOCOL then (true, st) else schedule_update st

end Protocol

namespace Prices

/-- `prices::normalize_price_data`: wrap a price, converting ms to seconds. -/
def normalize_price_data (price : Int) (timestamp : Nat) : PriceData :=
  { price := price, timestamp := timestamp / 1000 }

/-- `prices::get_last_timestamp`. -/
def get_last_timestamp (st : OracleState) : Nat :=
  st.lastTimestamp

/-- `prices::set_last_timestamp`. -/
def set_last_timestamp (st : OracleState) (timestamp : Nat) : OracleState :=
  { st with lastTimestamp := timestamp }

/-- `prices::get_history_map`. -/
def get_history_map (st : OracleState) : Mapping.Bytes :=
  st.history

/-- `prices::obtain_last_record_timestamp`: the stored last timestamp, gated
for existence, future skew, and staleness. -/
def obtain_last_record_timestamp (st : OracleState) : Nat :=
  let lastTimestamp := get_last_timestamp st
  let ledgerTimestamp := Timestamps.ledger_timestamp st
  let resolution := st.resolution
  if lastTimestamp = 0 ∨ lastTimestamp > ledgerTimestamp ∨
      ledgerTimestamp - lastTimestamp ≥ resolution * 2 then 0
  else lastTimestamp

/-- `prices::has_price`. -/
def has_price (st : OracleState) (assetIndex periodsAgo : Nat) : Bool :=
  Mapping.check_history_updated (get_history_map st) assetIndex periodsAgo

/-- `prices::load_price_records_cache`. -/
def load_price_records_cache (st : OracleState) : Option (List (Nat × PriceUpdate)) :=
  st.cache

/-- `prices::load_history_record`: recency cache first, then temporary storage. -/
def load_history_record (st : OracleState) (timestamp : Nat) : Option PriceUpdate :=
  match load_price_records_cache st with
  | some cache =>
    match cache.find? (fun p => p.1 == timestamp) with
    | some hit => some hit.2
    | none => lookupAssoc st.tempRecords timestamp
  | none => lookupAssoc st.tempRecords timestamp

/-- `prices::format_price_key_v1`: `(timestamp as u128) << 64 | asset`. -/
def format_price_key_v1 (asset timestamp : Nat) : Nat :=
  timestamp * 2 ^ 64 + asset

/-- `prices::get_price_v1`. -/
def get_price_v1 (st : OracleState) (asset timestamp : Nat) : Option Int :=
  lookupAssoc st.tempV1 (format_price_key_v1 asset timestamp)

/-- Loop of `prices::store_price_v1` over the enumerated updates: zero prices
are skipped, others stored under the legacy packed key.  The enumeration index
is truncated `as u8`.  TTL extension has no effect on stored contents and is
not modeled. -/
def storePriceV1Go (timestamp : Nat) (i : Nat) (tempV1 : List (Nat × Int)) :
    List Int → List (Nat × Int)
  | [] => tempV1
  | price :: rest =>
    if price = 0 then storePriceV1Go timestamp (i + 1) tempV1 rest
    else
      storePriceV1Go timestamp (i + 1)
        (setAssoc tempV1 (format_price_key_v1 (i % 256) timestamp) price) rest

/-- `prices::store_price_v1`. -/
def store_price_v1 (st : OracleState) (updates : List Int) (timestamp : Nat)
    (_ledgersToLive : Nat) : OracleState :=
  { st with tempV1 := storePriceV1Go timestamp 0 st.tempV1 updates }

/-- Loop of `prices::extract_update_record_prices` over `0..total`:
`none` models the fatal out-of-bounds `get_unchecked`. -/
def extractPricesGo (update : PriceUpdate) (remaining assetIndex updateIndex : Nat)
    (acc : List Int) : Option (List Int) :=
  match remaining with
  | 0 => some acc
  | r + 1 =>
    if Mapping.check_period_updated update.mask assetIndex then
      match update.prices.get? updateIndex with
      | none => none
      | some price => extractPricesGo update r (assetIndex + 1) (updateIndex + 1) (acc ++ [price])
    else
      extractPricesGo update r (assetIndex + 1) updateIndex (acc ++ [0])

/-- `prices::extract_update_record_prices(update, total)`: one price per asset
index below `total`, zero when the mask bit is unset. -/
def extract_update_record_prices (update : PriceUpdate) (total : Nat) : Option (List Int) :=
  extractPricesGo update total 0 0 []

/-- Loop of `prices::extract_single_update_record_price` over
`0..asset_index + 1`; `none` models the fatal out-of-bounds `get_unchecked`. -/
def extractSingleGo (update : PriceUpdate) (assetIndex : Nat) :
    Nat → Nat → Nat → Option Int
  | 0, _, _ => some 0
  | r + 1, asset, updateIndex =>
    if Mapping.check_period_updated update.mask asset then
      if asset = assetIndex then update.prices.get? updateIndex
      else extractSingleGo update assetIndex r (asset + 1) (updateIndex + 1)
    else extractSingleGo update assetIndex r (asset + 1) updateIndex

/-- `prices::extract_single_update_record_price`. -/
def extract_single_update_record_price (update : PriceUpdate) (assetIndex : Nat) : Option Int :=
  extractSingleGo update assetIndex (assetIndex + 1) 0 0

/-- The gap-filling loop of `prices::update_history_mask`
(`for _ in 1..update_delta`): fold `count` all-zero update vectors of length
`len` into the history. -/
def foldGapFills (history : Mapping.Bytes) (len : Nat) : Nat → Mapping.Bytes
  | 0 => history
  | count + 1 => foldGapFills (Mapping.update_history_mask history (List.replicate len 0)) len count

/-- `prices::update_history_mask(prices, timestamp)`: synthesize empty updates
for skipped periods, then fold the update itself into the history mask. -/
def update_history_mask (st : OracleState) (prices : List Int) (timestamp : Nat) : OracleState :=
  let lastTimestamp := get_last_timestamp st
  let historyMap := get_history_map st
  let resolution := st.resolution
  let updateDelta :=
    if lastTimestamp > 0 ∧ timestamp > lastTimestamp then
      (timestamp - lastTimestamp) / resolution
    else 0
  let historyMap :=
    if updateDelta > 1 then foldGapFills historyMap prices.length (updateDelta - 1)
    else historyMap
  let historyMap := Mapping.update_history_mask historyMap prices
  { st with history := historyMap }

/-- `prices::store_prices`: bump the last-timestamp marker only forward, store
the record in temporary storage, refresh the bounded recency cache, and keep
the legacy format in sync while pre-migration.  TTL extension has no effect on
stored contents and is not modeled. -/
def store_prices (st : OracleState) (update : PriceUpdate) (timestamp : Nat)
    (updateV1 : List Int) : OracleState :=
  let st := if timestamp > get_last_timestamp st then set_last_timestamp st timestamp else st
  let st := { st with tempRecords := setAssoc st.tempRecords timestamp update }
  let cacheSize := st.cacheSize
  let st :=
    if cacheSize > 0 then
      let cache := (load_price_records_cache st).getD []
      let cache := (timestamp, update) :: cache
      let cache := cache.take cacheSize
      { st with cache := some cache }
    else st
  let ledgersToLive := (st.retentionPeriod / 1000 / 5 + 1) * 2
  let latest := Protocol.at_latest_protocol_version st
  if latest.1 then latest.2 else store_price_v1 latest.2 updateV1 timestamp ledgersToLive

/-- `prices::retrieve_asset_price_data`: version-gated point lookup.  The
protocol check can mutate state, so the state is returned alongside the
result; a fatal abort inside the record extraction is collapsed to an absent
result (the aborted invocation exposes no value and no state change). -/
def retrieve_asset_price_data (st : OracleState) (asset timestamp : Nat) :
    Option PriceData × OracleState :=
  let latest := Protocol.at_latest_protocol_version st
  let st := latest.2
  if !latest.1 then
    match get_price_v1 st (asset % 256) timestamp with
    | none => (none, st)
    | some price => (some (normalize_price_data price timestamp), st)
  else
    let last := get_last_timestamp st
    if last < timestamp then (none, st)
    else
      let period := if last > timestamp then (last - timestamp) / st.resolution else 0
      if period > 255 then (none, st)
      else if !has_price st asset period then (none, st)
      else
        match load_history_record st timestamp with
        | none => (none, st)
        | some record =>
          match extract_single_update_record_price record asset with
          | none => (none, st)
          | some price => (some (normalize_price_data price timestamp), st)

/-- The backward walk of `prices::load_prices` (`while records > 0`), with the
remaining-records counter as fuel: fetch, stop before stepping below time
zero, decrement, step back one resolution. -/
def loadPricesLoop (getPriceFn : Nat → Option PriceData) (resolution : Nat) :
    Nat → Nat → List PriceData → List PriceData
  | 0, _, prices => prices
  | records + 1, timestamp, prices =>
    let prices :=
      match getPriceFn timestamp with
      | some price => prices ++ [price]
      | none => prices
    if timestamp < resolution then prices
    else loadPricesLoop getPriceFn resolution records (timestamp - resolution) prices

/-- `prices::load_prices(get_price_fn, records)`: walk back from the latest
valid timestamp for up to `min(records, 20)` periods. -/
def load_prices (st : OracleState) (getPriceFn : Nat → Option PriceData)
    (records : Nat) : Option (List PriceData) :=
  let timestamp := obtain_last_record_timestamp st
  if timestamp = 0 then none
  else
    let records := min records 20
    let prices := loadPricesLoop getPriceFn st.resolution records timestamp []
    if prices.isEmpty then none else some prices

/-- `prices::calculate_twap(get_price_fn, records)`: strict arithmetic mean of
exactly `records` records, with a freshness gate on the newest one. -/
def calculate_twap (st : OracleState) (getPriceFn : Nat → Option PriceData)
    (records : Nat) : Option Int :=
  match load_prices st getPriceFn records with
  | none => none
  | some prices =>
    if prices.length ≠ records then none
    else
      match prices.head? with
      | none => none
      | some first =>
        let lastPriceTimestamp := first.timestamp * 1000
        let timeframe := st.resolution
        let currentTime := Timestamps.ledger_timestamp st
        if lastPriceTimestamp + timeframe + 60 * 1000 < currentTime then none
        else some (Int.tdiv (prices.foldl (fun s p => s + p.price) 0) prices.length)

/-- Rust `i128::ilog10` on a positive value: the number of powers
`10 ^ 1, …, 10 ^ 39` not exceeding the argument, i.e. `⌊log10 x⌋` for every
positive `i128` (which is always below `10 ^ 39`). -/
def ilog10 (x : Nat) : Nat :=
  (List.range 39).countP (fun j => 10 ^ (j + 1) ≤ x)

/-- Two's-complement reduction of an integer into the `i128` range: the value
a release-build `i128` multiplication (or `pow`, a chain of such
multiplications) produces in place of the mathematical result. -/
def wrap128 (x : Int) : Int :=
  let r := x % (2 ^ 128 : Int)
  if r < 2 ^ 127 then r else r - 2 ^ 128

/-- `prices::fixed_div_floor(dividend, divisor, decimals)`: panic (`none`) on
non-positive operands; split the decimal scaling between numerator shift and
denominator truncation.  The scaling multiplications wrap modulo `2 ^ 128`
(release build, matching the wrapping `u32` subtraction in
`check_history_updated`); the divisions abort in every profile on a zero
divisor or on the `i128::MIN / -1` overflow, modeled as `none`.  Since Lean's
`Int.tdiv _ 0 = 0`, the zero-divisor abort of the intermediate truncating
division (reachable only when `wrap128 (10 ^ bshift) = 0`, i.e.
`bshift ≥ 128`) surfaces at the final `vdivisor = 0` test with the same
observable outcome. -/
def fixed_div_floor (dividend divisor : Int) (decimals : Nat) : Option Int :=
  if dividend ≤ 0 ∨ divisor ≤ 0 then none
  else
    let ashift := min (38 - ilog10 dividend.toNat) decimals
    let bshift := decimals - ashift
    let vdividend := if ashift > 0 then wrap128 (dividend * 10 ^ ashift) else dividend
    let vdivisor := if bshift > 0 then Int.tdiv divisor (wrap128 (10 ^ bshift)) else divisor
    if vdivisor = 0 then none
    else if vdividend = -(2 ^ 127) ∧ vdivisor = -1 then none
    else some (Int.tdiv vdividend vdivisor)

/-- `prices::load_cross_price(asset_pair_indexes, timestamp, decimals)`:
identity for equal indexes, otherwise the fixed-point ratio of the two legs'
prices at the same timestamp. -/
def load_cross_price (st : OracleState) (assetPairIndexes : Nat × Nat)
    (timestamp : Nat) (decimals : Nat) : Option PriceData × OracleState :=
  let baseAsset := assetPairIndexes.1
  let quoteAsset := assetPairIndexes.2
  if baseAsset = quoteAsset then
    (some (normalize_price_data ((10 : Int) ^ decimals) timestamp), st)
  else
    match retrieve_asset_price_data st baseAsset timestamp with
    | (none, st) => (none, st)
    | (some baseAssetPrice, st) =>
      match retrieve_asset_price_data st quoteAsset timestamp with
      | (none, st) => (none, st)
      | (some quoteAssetPrice, st) =>
        match fixed_div_floor baseAssetPrice.price quoteAssetPrice.price decimals with
        | none => (none, st)
        | some price => (some (normalize_price_data price timestamp), st)

end Prices

namespace Assets

/-- `assets::ASSET_LIMIT`. -/
def ASSET_LIMIT : Nat := 1000

/-- `assets::resolve_asset_index`: stable index lookup through the per-asset
instance-storage keys. -/
def resolve_asset_index (indexMap : List (Asset × Nat)) (asset : Asset) : Option Nat :=
  (indexMap.find? (fun p => p.1 == asset)).map (fun p => p.2)

/-- `assets::get_expiration_timestamp`: `now + period` days, `checked_add`
(`none` models the unwrap abort on `u64` overflow), zero when no period set. -/
def get_expiration_timestamp (st : OracleState) (initialExpirationPeriod : Nat) : Option Nat :=
  if initialExpirationPeriod > 0 then
    let sum := Timestamps.ledger_timestamp st +
      Timestamps.days_to_milliseconds initialExpirationPeriod
    if sum < 2 ^ 64 then some sum else none
  else some 0

/-- The per-asset loop of `assets::add_assets`: duplicate check, index
assignment (`set_asset_index` writes the per-asset storage key immediately),
append, and optional expiration append. -/
def addAssetsGo (feeSet : Bool) (expirationTimestamp : Nat)
    (indexMap : List (Asset × Nat)) (assetList : List Asset) (expiration : List Nat) :
    List Asset → Except ContractError (List (Asset × Nat) × List Asset × List Nat)
  | [] => .ok (indexMap, assetList, expiration)
  | asset :: rest =>
    if (resolve_asset_index indexMap asset).isSome then .error .assetAlreadyExists
    else
      addAssetsGo feeSet expirationTimestamp
        ((asset, assetList.length) :: indexMap)
        (assetList ++ [asset])
        (if feeSet ∧ expirationTimestamp > 0 then expiration ++ [expirationTimestamp]
         else expiration)
        rest

/-- `assets::add_assets(assets, initial_expiration_period)`: `Except.error`
models the invocation abort, which discards all tentative writes. -/
def add_assets (st : OracleState) (assets : List Asset) (initialExpirationPeriod : Nat) :
    Except ContractError OracleState :=
  match get_expiration_timestamp st initialExpirationPeriod with
  | none => .error .arithmeticOverflow
  | some expirationTimestamp =>
    match addAssetsGo st.feeConfigSet expirationTimestamp
        st.assetIndexMap st.assetsList st.expiration assets with
    | .error e => .error e
    | .ok (indexMap, assetList, expiration) =>
      if assetList.length ≥ ASSET_LIMIT then .error .assetLimitExceeded
      else .ok { st with assetIndexMap := indexMap, assetsList := assetList,
                         expiration := expiration }

end Assets

/-- Outcome of `PriceOracle::set_price`: silently skipped (state unchanged),
fatal abort, or accepted with the new state. -/
inductive SetPriceOutcome where
  | skipped (st : OracleState)
  | fatal (e : ContractError)
  | accepted (st : OracleState)
deriving DecidableEq, Repr

/-- Whether a `set_price` outcome is the accepted case. -/
def SetPriceOutcome.isAccepted : SetPriceOutcome → Bool
  | .accepted _ => true
  | _ => false

/-- Whether a `set_price` outcome is a fatal abort. -/
def SetPriceOutcome.isFatal : SetPriceOutcome → Bool
  | .fatal _ => true
  | _ => false

namespace PriceOracle

/-- `PriceOracle::set_price(update, timestamp)` (admin authorization is out of
scope and assumed granted; event publication has no contract-state effect). -/
def set_price (st : OracleState) (update : PriceUpdate) (timestamp : Nat) : SetPriceOutcome :=
  if update.prices.length = 0 then .skipped st
  else if update.prices.length > st.assetsList.length then .fatal .invalidPricesUpdate
  else
    let ledgerTimestamp := Timestamps.ledger_timestamp st
    if timestamp = 0 ∨ Timestamps.is_valid st.resolution timestamp = false ∨
        timestamp > ledgerTimestamp then .fatal .invalidTimestamp
    else
      match Prices.extract_update_record_prices update st.assetsList.length with
      | none => .fatal .vectorOutOfBounds
      | some assetPrices =>
        let st := Prices.update_history_mask st assetPrices timestamp
        .accepted (Prices.store_prices st update timestamp assetPrices)

end PriceOracle

/-!
Abstraction layer for the history-mask proofs: a reachable history buffer is
the concatenation of 32-byte big-endian blocks, one 256-bit window per asset.
-/

namespace Mapping

/-- One shift-and-insert step on a single asset's 256-bit window. -/
def stepW (w : Nat) (p : Int) : Nat :=
  w * 2 % U256_LIMIT + (if p > 0 then 1 else 0)

/-- Encode a list of per-asset windows as the concatenated history buffer. -/
def blocks (ws : List Nat) : Bytes :=
  (ws.map u256ToBeBytes).flatten

/-- Effect of one `update_history_mask` call on the window list. -/
def stepCall (ws : List Nat) (us : List Int) : List Nat :=
  if ws.isEmpty then us.map (fun p => stepW 0 p) else List.zipWith stepW ws us

/-- Window list after a sequence of `update_history_mask` calls from scratch. -/
def wsSpec (calls : List (List Int)) : List Nat :=
  calls.foldl stepCall []

end Mapping

/-- Number of set bits of a 256-bit update mask among asset indexes
`[lo, lo + len)` — the popcount the price-extraction loop walks through. -/
def countMaskBits (mask : Mapping.Bytes) (lo : Nat) : Nat → Nat
  | 0 => 0
  | len + 1 =>
    (if Mapping.check_period_updated mask lo then 1 else 0) + countMaskBits mask (lo + 1) len

/-- The part of one accepted `set_price` call that determines the history
bitmask: `prices::update_history_mask` followed by the last-timestamp bump
performed by `prices::store_prices`. -/
def recordHistoryStep (st : OracleState) (prices : List Int) (timestamp : Nat) : OracleState :=
  let st := Prices.update_history_mask st prices timestamp
  if timestamp > Prices.get_last_timestamp st then Prices.set_last_timestamp st timestamp else st

/-- An oracle state with empty storage and all settings zero, the base of the
concrete states used below. -/
def baseState : OracleState :=
  { ledgerSeconds := 0, resolution := 0, cacheSize := 0, retentionPeriod := 0,
    protocolVersion := none, protocolUpdateTs := 0, lastTimestamp := 0,
    history := [], cache := none, tempRecords := [], tempV1 := [],
    assetIndexMap := [], assetsList := [], expiration := [], feeConfigSet := false }

/-- Three registered assets, 500 ms resolution, ledger time 2000 ms. -/
def threeAssetState : OracleState :=
  { baseState with
    assetsList := [Asset.stellar 0, Asset.stellar 1, Asset.stellar 2],
    resolution := 500, ledgerSeconds := 2 }

/-- An update carrying two prices under an all-zero mask (prices/mask
popcount mismatch with surplus prices). -/
def mismatchUpdate : PriceUpdate :=
  { prices := [1, 2], mask := List.replicate 32 0 }

/-- An update carrying one price for asset 0 (mask bit 0 set). -/
def singleAssetUpdate : PriceUpdate :=
  { prices := [7], mask := 1 :: List.replicate 31 0 }

/-- A registry already holding 999 assets with dense indexes. -/
def fullRegistryState : OracleState :=
  { baseState with
    assetsList := (List.range 999).map Asset.stellar,
    assetIndexMap := (List.range 999).map (fun i => (Asset.stellar i, i)) }

/-- A state with a fresh stored last timestamp (same period as ledger time). -/
def freshLastState : OracleState :=
  { baseState with resolution := 500, lastTimestamp := 1000, ledgerSeconds := 1 }

/-- A state with a stored last timestamp exactly two resolutions old. -/
def twoResState : OracleState :=
  { baseState with resolution := 500, lastTimestamp := 1000, ledgerSeconds := 2 }

/-- A state whose stored last timestamp (2000 ms) is newer than the
update timestamp used against it. -/
def newerLastState : OracleState :=
  { baseState with
    assetsList := [Asset.stellar 0], resolution := 500, ledgerSeconds := 3,
    lastTimestamp := 2000 }

namespace Mapping

theorem length_u256ToBeBytes (x : Nat) : (u256ToBeBytes x).length = 32 := by
  simp [u256ToBeBytes]

theorem getD_u256ToBeBytes (x j : Nat) (hj : j < 32) :
    (u256ToBeBytes x).getD j 0 = x / 2 ^ (8 * (31 - j)) % 256 := by
  simp [u256ToBeBytes, List.getD_eq_getElem?_getD, List.getElem?_map,
    List.getElem?_range hj]

theorem u256FromBeBytes_append (l : Bytes) (b : Nat) :
    u256FromBeBytes (l ++ [b]) = u256FromBeBytes l * 256 + b := by
  simp [u256FromBeBytes]

theorem u256FromBeBytes_take (x : Nat) :
    ∀ k, k ≤ 32 →
      u256FromBeBytes ((List.range k).map (fun b => x / 2 ^ (8 * (31 - b)) % 256)) =
        x / 2 ^ (8 * (32 - k)) % 2 ^ (8 * k) := by
  intro k
  induction k with
  | zero => simp [u256FromBeBytes, Nat.mod_one]
  | succ k ih =>
    intro hk
    have hk' : k ≤ 32 := Nat.le_of_succ_le hk
    have hk31 : k ≤ 31 := Nat.lt_succ_iff.mp hk
    rw [List.range_succ, List.map_append, List.map_cons, List.map_nil,
      u256FromBeBytes_append, ih hk']
    have hidx : 32 - (k + 1) = 31 - k := by omega
    rw [hidx]
    have hdd : x / 2 ^ (8 * (32 - k)) = x / 2 ^ (8 * (31 - k)) / 256 := by
      rw [Nat.div_div_eq_div_mul]
      congr 1
      rw [show 8 * (32 - k) = 8 * (31 - k) + 8 by omega, pow_add]
      norm_num
    rw [hdd]
    have hmm := @Nat.mod_mul 256 (2 ^ (8 * k)) (x / 2 ^ (8 * (31 - k)))
    have hpow : 256 * 2 ^ (8 * k) = 2 ^ (8 * (k + 1)) := by
      rw [show 8 * (k + 1) = 8 * k + 8 by ring, pow_add]
      ring
    rw [hpow] at hmm
    omega

theorem u256FromBeBytes_u256ToBeBytes (x : Nat) :
    u256FromBeBytes (u256ToBeBytes x) = x % U256_LIMIT := by
  have h := u256FromBeBytes_take x 32 (le_refl 32)
  simpa [u256ToBeBytes, U256_LIMIT] using h

theorem u256ToBeBytes_lt (x : Nat) : ∀ b ∈ u256ToBeBytes x, b < 256 := by
  intro b hb
  simp only [u256ToBeBytes, List.mem_map] at hb
  obtain ⟨j, _, rfl⟩ := hb
  exact Nat.mod_lt _ (by norm_num)

theorem blocks_nil : blocks [] = [] := rfl

theorem blocks_cons (w : Nat) (ws : List Nat) :
    blocks (w :: ws) = u256ToBeBytes w ++ blocks ws := by
  simp [blocks]

theorem blocks_append (ws₁ ws₂ : List Nat) :
    blocks (ws₁ ++ ws₂) = blocks ws₁ ++ blocks ws₂ := by
  simp [blocks]

theorem length_blocks (ws : List Nat) : (blocks ws).length = 32 * ws.length := by
  induction ws with
  | nil => simp [blocks]
  | cons w ws ih =>
    rw [blocks_cons]
    simp only [List.length_append, length_u256ToBeBytes, ih, List.length_cons]
    ring

theorem getD_blocks (ws : List Nat) (i b : Nat) (hb : b < 32) :
    (blocks ws).getD (32 * i + b) 0 =
      if i < ws.length then (u256ToBeBytes (ws.getD i 0)).getD b 0 else 0 := by
  induction ws generalizing i with
  | nil => simp [blocks]
  | cons w ws ih =>
    rw [blocks_cons]
    cases i with
    | zero =>
      rw [List.getD_append _ _ _ _ (by rw [length_u256ToBeBytes]; omega)]
      simp
    | succ i =>
      rw [List.getD_append_right _ _ _ _ (by rw [length_u256ToBeBytes]; omega)]
      rw [length_u256ToBeBytes]
      have h : 32 * (i + 1) + b - 32 = 32 * i + b := by ring_nf; omega
      rw [h, ih i]
      simp

theorem slice_blocks (ws : List Nat) (i : Nat) (hi : i < ws.length) :
    bytesSlice (blocks ws) (i * 32) (i * 32 + 32) = u256ToBeBytes (ws.getD i 0) := by
  induction ws generalizing i with
  | nil => simp at hi
  | cons w ws ih =>
    rw [blocks_cons]
    cases i with
    | zero =>
      simp only [bytesSlice, Nat.zero_mul, List.drop_zero, Nat.add_sub_cancel_left]
      rw [List.take_left' (length_u256ToBeBytes w)]
      simp
    | succ i =>
      simp only [bytesSlice] at ih ⊢
      have hdrop : List.drop ((i + 1) * 32) (u256ToBeBytes w ++ blocks ws) =
          List.drop (i * 32) (blocks ws) := by
        have h1 : (i + 1) * 32 = 32 + i * 32 := by ring
        rw [h1, ← List.drop_drop, List.drop_left' (length_u256ToBeBytes w)]
      rw [hdrop]
      have h2 : (i + 1) * 32 + 32 - (i + 1) * 32 = i * 32 + 32 - i * 32 := by omega
      rw [h2]
      exact ih i (by simpa using hi)

theorem set_append_right' {α : Type} (A rest : List α) (k : Nat) (v : α) :
    (A ++ rest).set (A.length + k) v = A ++ rest.set k v := by
  induction A with
  | nil => simp
  | cons a A ih =>
    have h : (a :: A).length + k = (A.length + k) + 1 := by
      simp [Nat.succ_add]
    simp only [List.cons_append, h, List.set_cons_succ, ih]

theorem set_append_left' {α : Type} (A rest : List α) (k : Nat) (v : α) (hk : k < A.length) :
    (A ++ rest).set k v = A.set k v ++ rest := by
  induction A generalizing k with
  | nil => simp at hk
  | cons a A ih =>
    cases k with
    | zero => simp
    | succ k =>
      have hk' : k < A.length := by simpa using hk
      simp only [List.cons_append, List.set_cons_succ, ih k hk']

theorem setLoop_section (A B C enc : Bytes) (hB : B.length = 32) (henc : enc.length = 32) :
    ∀ k, k ≤ 32 →
      setLoop (A ++ B ++ C) A.length enc k = A ++ (enc.take k ++ B.drop k) ++ C := by
  intro k
  induction k with
  | zero => simp [setLoop]
  | succ k ih =>
    intro hk
    have hk' : k ≤ 32 := Nat.le_of_succ_le hk
    have hk31 : k < 32 := hk
    rw [setLoop, ih hk']
    have htk : (enc.take k).length = k := by
      simp [henc]
      omega
    have hlenM : (enc.take k ++ B.drop k).length = 32 := by
      simp [henc, hB]
      omega
    rw [set_append_left' (A ++ (enc.take k ++ B.drop k)) C (A.length + k)
      (enc.getD k 0) (by simp [hlenM]; omega)]
    rw [set_append_right' A (enc.take k ++ B.drop k) k (enc.getD k 0)]
    have hset := set_append_right' (enc.take k) (B.drop k) 0 (enc.getD k 0)
    rw [htk, Nat.add_zero] at hset
    rw [hset]
    have hkB : k < B.length := by omega
    have hdset : (B.drop k).set 0 (enc.getD k 0) = enc.getD k 0 :: B.drop (k + 1) := by
      rw [List.drop_eq_getElem_cons hkB, List.set_cons_zero]
    have hkE : k < enc.length := by omega
    have htake : enc.take (k + 1) = enc.take k ++ [enc.getD k 0] := by
      rw [List.take_succ, List.getD_eq_getElem?_getD, List.getElem?_eq_getElem hkE]
      simp
    rw [hdset, htake]
    simp

theorem setLoop_replace (A B C enc : Bytes) (hB : B.length = 32) (henc : enc.length = 32) :
    setLoop (A ++ B ++ C) A.length enc 32 = A ++ enc ++ C := by
  rw [setLoop_section A B C enc hB henc 32 (le_refl 32)]
  rw [List.take_of_length_le (by omega), List.drop_eq_nil_of_le (by omega)]
  simp

theorem stepW_eq (w : Nat) (p : Int) :
    stepW w p = 2 * (w % 2 ^ 255) + (if p > 0 then 1 else 0) := by
  unfold stepW U256_LIMIT
  congr 1
  rw [show (2 : Nat) ^ 256 = 2 * 2 ^ 255 by rw [← pow_succ']]
  rw [mul_comm w 2, Nat.mul_mod_mul_left]

theorem stepW_lt (w : Nat) (p : Int) : stepW w p < U256_LIMIT := by
  rw [stepW_eq]
  have h : w % 2 ^ 255 < 2 ^ 255 := Nat.mod_lt _ (by positivity)
  have h2 : U256_LIMIT = 2 * 2 ^ 255 := by
    unfold U256_LIMIT
    rw [← pow_succ']
  rw [h2]
  split <;> omega

theorem testBit_stepW_zero (w : Nat) (p : Int) :
    (stepW w p).testBit 0 = decide (0 < p) := by
  rw [stepW_eq, Nat.testBit_zero]
  have key : (2 * (w % 2 ^ 255) + (if p > 0 then 1 else 0)) % 2 =
      (if p > 0 then 1 else 0) := by
    split <;> omega
  rw [key]
  by_cases hp : p > 0
  · simp [hp]
  · simp [hp]

theorem testBit_stepW_succ (w : Nat) (p : Int) (k : Nat) :
    (stepW w p).testBit (k + 1) = (decide (k < 255) && w.testBit k) := by
  rw [stepW_eq, Nat.testBit_succ]
  have hdiv : (2 * (w % 2 ^ 255) + (if p > 0 then 1 else 0)) / 2 = w % 2 ^ 255 := by
    split <;> omega
  rw [hdiv, Nat.testBit_mod_two_pow]

theorem blocks_decomp (ws : List Nat) (i : Nat) (hi : i < ws.length) :
    blocks ws = blocks (ws.take i) ++ u256ToBeBytes (ws.getD i 0) ++ blocks (ws.drop (i + 1)) := by
  conv_lhs => rw [← List.take_append_drop i ws, List.drop_eq_getElem_cons hi]
  rw [blocks_append, blocks_cons, List.getD_eq_getElem ws 0 hi]
  simp [List.append_assoc]

theorem length_blocks_take (ws : List Nat) (i : Nat) (hi : i ≤ ws.length) :
    (blocks (ws.take i)).length = 32 * i := by
  rw [length_blocks, List.length_take]
  omega

theorem foldAssetMask_blocks_set (ws : List Nat) (idx : Nat) (p : Int)
    (hws : ∀ w ∈ ws, w < U256_LIMIT) (hidx : idx < ws.length) :
    foldAssetMask (blocks ws) idx p = blocks (ws.set idx (stepW (ws.getD idx 0) p)) := by
  have hmem : ws.getD idx 0 ∈ ws := by
    rw [List.getD_eq_getElem ws 0 hidx]
    exact List.getElem_mem hidx
  have hwlt : ws.getD idx 0 < U256_LIMIT := hws _ hmem
  have hlen := length_blocks ws
  have hhi : idx * RECORD_SIZE + RECORD_SIZE ≤ (blocks ws).length := by
    rw [hlen]
    unfold RECORD_SIZE
    omega
  have hnotlo : ¬ (blocks ws).length ≤ idx * RECORD_SIZE := by
    rw [hlen]
    unfold RECORD_SIZE
    omega
  simp only [foldAssetMask]
  rw [if_pos hhi, if_neg hnotlo]
  have hslice : bytesSlice (blocks ws) (idx * RECORD_SIZE) (idx * RECORD_SIZE + RECORD_SIZE) =
      u256ToBeBytes (ws.getD idx 0) := slice_blocks ws idx hidx
  rw [hslice, u256FromBeBytes_u256ToBeBytes, Nat.mod_eq_of_lt hwlt]
  have hstep : (if p > 0 then ws.getD idx 0 * 2 % U256_LIMIT + 1
      else ws.getD idx 0 * 2 % U256_LIMIT) = stepW (ws.getD idx 0) p := by
    unfold stepW
    split <;> simp
  rw [hstep]
  have hdecomp := blocks_decomp ws idx hidx
  have hAlen : (blocks (ws.take idx)).length = 32 * idx :=
    length_blocks_take ws idx (Nat.le_of_lt hidx)
  have hpos : idx * RECORD_SIZE = (blocks (ws.take idx)).length := by
    rw [hAlen]
    unfold RECORD_SIZE
    ring
  rw [hdecomp, hpos]
  rw [show RECORD_SIZE = 32 from rfl]
  rw [setLoop_replace (blocks (ws.take idx))
    (u256ToBeBytes (ws.getD idx 0)) (blocks (ws.drop (idx + 1)))
    (u256ToBeBytes (stepW (ws.getD idx 0) p))
    (length_u256ToBeBytes _) (length_u256ToBeBytes _)]
  rw [List.set_eq_take_append_cons_drop, if_pos hidx]
  rw [blocks_append, blocks_cons]
  simp [List.append_assoc]

theorem foldAssetMask_blocks_append (ws : List Nat) (p : Int) :
    foldAssetMask (blocks ws) ws.length p = blocks (ws ++ [stepW 0 p]) := by
  have hlen := length_blocks ws
  have hnothi : ¬ ws.length * RECORD_SIZE + RECORD_SIZE ≤ (blocks ws).length := by
    rw [hlen]
    unfold RECORD_SIZE
    omega
  have hlo : (blocks ws).length ≤ ws.length * RECORD_SIZE := by
    rw [hlen]
    unfold RECORD_SIZE
    omega
  simp only [foldAssetMask]
  rw [if_neg hnothi, if_pos hlo]
  have hstep : (if p > 0 then 0 * 2 % U256_LIMIT + 1 else 0 * 2 % U256_LIMIT) = stepW 0 p := by
    unfold stepW
    split <;> simp
  rw [hstep, blocks_append, blocks_cons, blocks_nil]
  simp

theorem go_blocks_grow (us : List Int) : ∀ ws : List Nat,
    updateHistoryMaskGo (blocks ws) ws.length us = blocks (ws ++ us.map (fun p => stepW 0 p)) := by
  induction us with
  | nil => intro ws; simp [updateHistoryMaskGo]
  | cons p rest ih =>
    intro ws
    rw [updateHistoryMaskGo, foldAssetMask_blocks_append]
    have h1 : ws.length + 1 = (ws ++ [stepW 0 p]).length := by simp
    rw [h1, ih (ws ++ [stepW 0 p])]
    simp [List.append_assoc]

theorem go_blocks_set (us : List Int) : ∀ (ws : List Nat) (idx : Nat),
    (∀ w ∈ ws, w < U256_LIMIT) → idx + us.length = ws.length →
    updateHistoryMaskGo (blocks ws) idx us =
      blocks (ws.take idx ++ List.zipWith stepW (ws.drop idx) us) := by
  induction us with
  | nil =>
    intro ws idx hws hlen
    have : idx = ws.length := by simpa using hlen
    simp [updateHistoryMaskGo, this, List.take_of_length_le (le_refl ws.length)]
  | cons p rest ih =>
    intro ws idx hws hlen
    have hidx : idx < ws.length := by simp at hlen; omega
    rw [updateHistoryMaskGo, foldAssetMask_blocks_set ws idx p hws hidx]
    have hws2 : ∀ w ∈ ws.set idx (stepW (ws.getD idx 0) p), w < U256_LIMIT := by
      intro w hw
      rcases List.mem_or_eq_of_mem_set hw with h | h
      · exact hws w h
      · rw [h]; exact stepW_lt _ _
    have hlen2 : (idx + 1) + rest.length = (ws.set idx (stepW (ws.getD idx 0) p)).length := by
      rw [List.length_set]
      simp at hlen
      omega
    rw [ih _ (idx + 1) hws2 hlen2]
    have htkl : (ws.take idx).length = idx := by
      rw [List.length_take]
      omega
    have hset : ws.set idx (stepW (ws.getD idx 0) p) =
        ws.take idx ++ stepW (ws.getD idx 0) p :: ws.drop (idx + 1) := by
      rw [List.set_eq_take_append_cons_drop, if_pos hidx]
    have htake : (ws.set idx (stepW (ws.getD idx 0) p)).take (idx + 1) =
        ws.take idx ++ [stepW (ws.getD idx 0) p] := by
      rw [hset, List.take_append_eq_append_take, List.take_of_length_le (by omega), htkl]
      simp
    have hdrop : (ws.set idx (stepW (ws.getD idx 0) p)).drop (idx + 1) = ws.drop (idx + 1) := by
      rw [hset, List.drop_append_eq_append_drop, List.drop_eq_nil_of_le (by omega), htkl]
      simp
    rw [htake, hdrop]
    have hdropw : ws.drop idx = ws.getD idx 0 :: ws.drop (idx + 1) := by
      rw [List.drop_eq_getElem_cons hidx, List.getD_eq_getElem ws 0 hidx]
    rw [hdropw, List.zipWith_cons_cons]
    simp [List.append_assoc]

theorem uhm_blocks (ws : List Nat) (us : List Int)
    (hws : ∀ w ∈ ws, w < U256_LIMIT) (h : ws = [] ∨ ws.length = us.length) :
    update_history_mask (blocks ws) us = blocks (stepCall ws us) := by
  rcases h with h | h
  · subst h
    rw [update_history_mask]
    have := go_blocks_grow us []
    simpa [stepCall] using this
  · rcases List.eq_nil_or_concat ws with hE | ⟨_, _, hcons⟩
    · subst hE
      rw [update_history_mask]
      have hus : us = [] := by
        rw [← List.length_eq_zero]
        simp at h
        omega
      simp [stepCall, hus, updateHistoryMaskGo]
    · have hne : ws ≠ [] := by
        rw [hcons]
        simp
      rw [update_history_mask]
      have hgo := go_blocks_set us ws 0 hws (by omega)
      rw [hgo]
      have hE : ws.isEmpty = false := by
        cases ws
        · exact absurd rfl hne
        · rfl
      simp [stepCall, hE]

theorem mem_zipWith_stepW : ∀ (xs : List Nat) (ys : List Int) (x : Nat),
    x ∈ List.zipWith stepW xs ys → ∃ a b, x = stepW a b := by
  intro xs
  induction xs with
  | nil => intro ys x hx; simp at hx
  | cons a xs ih =>
    intro ys x hx
    cases ys with
    | nil => simp at hx
    | cons b ys =>
      rw [List.zipWith_cons_cons, List.mem_cons] at hx
      rcases hx with hx | hx
      · exact ⟨a, b, hx⟩
      · exact ih ys x hx

theorem stepCall_entries_lt (ws : List Nat) (us : List Int) :
    ∀ w ∈ stepCall ws us, w < U256_LIMIT := by
  intro w hw
  unfold stepCall at hw
  split at hw
  · simp only [List.mem_map] at hw
    obtain ⟨p, _, rfl⟩ := hw
    exact stepW_lt 0 p
  · obtain ⟨a, b, rfl⟩ := mem_zipWith_stepW ws us w hw
    exact stepW_lt a b

theorem stepCall_length (ws : List Nat) (us : List Int)
    (h : ws = [] ∨ ws.length = us.length) : (stepCall ws us).length = us.length := by
  rcases h with h | h
  · subst h
    simp [stepCall]
  · unfold stepCall
    split
    · simp
    · rw [List.length_zipWith, h]
      simp

theorem foldl_uhm_blocks (calls : List (List Int)) : ∀ (n : Nat),
    (∀ us ∈ calls, us.length = n) → ∀ ws : List Nat,
    (∀ w ∈ ws, w < U256_LIMIT) → (ws = [] ∨ ws.length = n) →
    List.foldl update_history_mask (blocks ws) calls =
      blocks (List.foldl stepCall ws calls) ∧
    (∀ w ∈ List.foldl stepCall ws calls, w < U256_LIMIT) ∧
    (List.foldl stepCall ws calls = [] ∨ (List.foldl stepCall ws calls).length = n) := by
  induction calls with
  | nil =>
    intro n h ws hws hlen
    exact ⟨rfl, hws, hlen⟩
  | cons us rest ih =>
    intro n h ws hws hlen
    have hus : us.length = n := h us (List.mem_cons_self us rest)
    have hdisj : ws = [] ∨ ws.length = us.length := by
      rcases hlen with hlen | hlen
      · exact Or.inl hlen
      · exact Or.inr (by omega)
    simp only [List.foldl_cons]
    rw [uhm_blocks ws us hws hdisj]
    exact ih n (fun u hu => h u (List.mem_cons_of_mem us hu)) (stepCall ws us)
      (stepCall_entries_lt ws us)
      (Or.inr (by rw [stepCall_length ws us hdisj]; exact hus))

theorem wsSpec_blocks (calls : List (List Int)) (n : Nat) (h : ∀ us ∈ calls, us.length = n) :
    List.foldl update_history_mask [] calls = blocks (wsSpec calls) :=
  (foldl_uhm_blocks calls n h [] (by simp) (Or.inl rfl)).1

theorem foldl_stepCall_entries_lt (calls : List (List Int)) : ∀ ws : List Nat,
    (∀ w ∈ ws, w < U256_LIMIT) → ∀ w ∈ List.foldl stepCall ws calls, w < U256_LIMIT := by
  induction calls with
  | nil => intro ws hws; exact hws
  | cons us rest ih =>
    intro ws hws
    simp only [List.foldl_cons]
    exact ih _ (stepCall_entries_lt ws us)

theorem wsSpec_entries_lt (calls : List (List Int)) :
    ∀ w ∈ wsSpec calls, w < U256_LIMIT :=
  foldl_stepCall_entries_lt calls [] (by simp)

theorem foldl_stepCall_length (calls : List (List Int)) : ∀ (n : Nat),
    (∀ us ∈ calls, us.length = n) → ∀ ws : List Nat,
    (ws = [] ∨ ws.length = n) → calls ≠ [] →
    (List.foldl stepCall ws calls).length = n := by
  induction calls with
  | nil => intro n _ ws _ hne; exact absurd rfl hne
  | cons us rest ih =>
    intro n h ws hws _
    have hus : us.length = n := h us (List.mem_cons_self us rest)
    have hdisj : ws = [] ∨ ws.length = us.length := by
      rcases hws with hws | hws
      · exact Or.inl hws
      · exact Or.inr (by omega)
    have hlen : (stepCall ws us).length = n := by
      rw [stepCall_length ws us hdisj]
      exact hus
    simp only [List.foldl_cons]
    by_cases hr : rest = []
    · subst hr
      simpa using hlen
    · exact ih n (fun u hu => h u (List.mem_cons_of_mem us hu)) (stepCall ws us)
        (Or.inr hlen) hr

theorem wsSpec_length_of_ne (calls : List (List Int)) (n : Nat)
    (h : ∀ us ∈ calls, us.length = n) (hne : calls ≠ []) : (wsSpec calls).length = n :=
  foldl_stepCall_length calls n h [] (Or.inl rfl) hne

theorem getD_map_stepW (us : List Int) (i : Nat) :
    (us.map (fun p => stepW 0 p)).getD i 0 =
      if i < us.length then stepW 0 (us.getD i 0) else 0 := by
  by_cases hi : i < us.length
  · rw [if_pos hi]
    rw [List.getD_eq_getElem _ _ (by simpa using hi), List.getElem_map,
      List.getD_eq_getElem us 0 hi]
  · rw [if_neg hi, List.getD_eq_default _ _ (by simpa using hi)]

theorem getD_zipWith_stepW : ∀ (xs : List Nat) (ys : List Int) (i : Nat),
    (List.zipWith stepW xs ys).getD i 0 =
      if i < xs.length ∧ i < ys.length then stepW (xs.getD i 0) (ys.getD i 0) else 0 := by
  intro xs
  induction xs with
  | nil => intro ys i; simp
  | cons x xs ih =>
    intro ys i
    cases ys with
    | nil => simp
    | cons y ys =>
      cases i with
      | zero => simp [List.zipWith_cons_cons]
      | succ i =>
        rw [List.zipWith_cons_cons, List.getD_cons_succ, ih ys i]
        simp [List.getD_cons_succ, Nat.succ_lt_succ_iff]

theorem claim_rhs_false_of_ge (calls : List (List Int)) (n i k : Nat)
    (h : ∀ us ∈ calls, us.length = n) (hi : n ≤ i) :
    ¬(k < calls.length ∧ 0 < (calls.getD (calls.length - 1 - k) []).getD i 0) := by
  rintro ⟨hk1, hp⟩
  have hj : calls.length - 1 - k < calls.length := by omega
  have hmem : calls.getD (calls.length - 1 - k) [] ∈ calls := by
    rw [List.getD_eq_getElem _ _ hj]
    exact List.getElem_mem hj
  have hlen := h _ hmem
  rw [List.getD_eq_default _ _ (by omega)] at hp
  exact lt_irrefl 0 hp

theorem testBit_wsSpec (calls : List (List Int)) : ∀ (n : Nat),
    (∀ us ∈ calls, us.length = n) → ∀ (i k : Nat), k ≤ 255 →
    ((wsSpec calls).getD i 0).testBit k =
      decide (k < calls.length ∧
        0 < (calls.getD (calls.length - 1 - k) []).getD i 0) := by
  induction calls using List.reverseRecOn with
  | nil =>
    intro n h i k hk
    simp [wsSpec]
  | append_singleton l u ih =>
    intro n h i k hk
    have hl : ∀ us ∈ l, us.length = n := fun us hus => h us (by simp [hus])
    have hu : u.length = n := h u (by simp)
    have hspec : wsSpec (l ++ [u]) = stepCall (wsSpec l) u := by
      simp [wsSpec, List.foldl_append]
    have hlast : (l ++ [u]).getD ((l ++ [u]).length - 1 - 0) [] = u := by
      have h1 : (l ++ [u]).length - 1 - 0 = l.length := by simp
      rw [h1, List.getD_append_right l [u] [] l.length (le_refl _)]
      simp
    rw [hspec]
    by_cases hW : wsSpec l = []
    · rw [hW]
      have hmap : stepCall [] u = u.map (fun p => stepW 0 p) := by simp [stepCall]
      rw [hmap, getD_map_stepW]
      by_cases hi : i < u.length
      · rw [if_pos hi]
        cases k with
        | zero =>
          rw [testBit_stepW_zero, hlast, decide_eq_decide]
          constructor
          · intro hp
            exact ⟨by simp, hp⟩
          · rintro ⟨_, hp⟩
            exact hp
        | succ k' =>
          rw [testBit_stepW_succ, Nat.zero_testBit, Bool.and_false]
          by_cases hle : l = []
          · subst hle
            simp
          · have hn0 : n = 0 := by
              have hlen := wsSpec_length_of_ne l n hl hle
              rw [hW] at hlen
              simpa using hlen.symm
            exact absurd hi (by omega)
      · rw [if_neg hi, Nat.zero_testBit, eq_comm, decide_eq_false_iff_not]
        exact claim_rhs_false_of_ge (l ++ [u]) n i k h (by omega)
    · have hlne : l ≠ [] := by
        intro hc
        subst hc
        exact hW rfl
      have hWlen : (wsSpec l).length = n := wsSpec_length_of_ne l n hl hlne
      have hzip : stepCall (wsSpec l) u = List.zipWith stepW (wsSpec l) u := by
        unfold stepCall
        have : (wsSpec l).isEmpty = false := by
          rw [List.isEmpty_eq_false]
          exact hW
        rw [this]
        simp
      rw [hzip, getD_zipWith_stepW]
      by_cases hi : i < n
      · rw [if_pos ⟨by omega, by omega⟩]
        cases k with
        | zero =>
          rw [testBit_stepW_zero, hlast, decide_eq_decide]
          constructor
          · intro hp
            exact ⟨by simp, hp⟩
          · rintro ⟨_, hp⟩
            exact hp
        | succ k' =>
          rw [testBit_stepW_succ]
          have h255 : decide (k' < 255) = true := by
            rw [decide_eq_true_eq]
            omega
          rw [h255, Bool.true_and]
          rw [ih n hl i k' (by omega), decide_eq_decide]
          by_cases hkl : k' < l.length
          · have hjlt : l.length - 1 - k' < l.length := by omega
            have hidx2 : (l ++ [u]).length - 1 - (k' + 1) = l.length - 1 - k' := by
              simp only [List.length_append, List.length_cons, List.length_nil]
              omega
            have happ : (l ++ [u]).getD (l.length - 1 - k') [] =
                l.getD (l.length - 1 - k') [] := List.getD_append _ _ _ _ hjlt
            rw [hidx2, happ]
            constructor
            · rintro ⟨_, h2⟩
              exact ⟨by simp; omega, h2⟩
            · rintro ⟨_, h2⟩
              exact ⟨hkl, h2⟩
          · constructor
            · rintro ⟨h1, _⟩
              exact absurd h1 hkl
            · rintro ⟨h1, _⟩
              exfalso
              apply hkl
              simp at h1
              omega
      · rw [if_neg (by omega), Nat.zero_testBit, eq_comm, decide_eq_false_iff_not]
        exact claim_rhs_false_of_ge (l ++ [u]) n i k h (by omega)

theorem and_pow_beq_eq_testBit (m t : Nat) : (m &&& 2 ^ t == 2 ^ t) = m.testBit t := by
  rw [Nat.and_two_pow]
  cases h : m.testBit t
  · simp only [h, Bool.toNat_false, Nat.zero_mul]
    rw [beq_eq_false_iff_ne]
    exact (pow_pos (by norm_num : (0:Nat) < 2) t).ne
  · simp [h]

theorem check_history_updated_blocks (ws : List Nat) (i k : Nat)
    (hk : k ≤ 255) (hi32 : 32 * i + 31 < U32_LIMIT) :
    check_history_updated (blocks ws) i k = (ws.getD i 0).testBit k := by
  have hU : U32_LIMIT = 4294967296 := by norm_num [U32_LIMIT]
  have hk8 : k / 8 ≤ 31 := by omega
  have hb : 31 - k / 8 < 32 := by omega
  have hlo1 : u32Wrap (i * RECORD_SIZE) = 32 * i := by
    have hlt : i * 32 < U32_LIMIT := by omega
    rw [show RECORD_SIZE = 32 from rfl, u32Wrap, Nat.mod_eq_of_lt hlt]
    ring
  have hlo2 : u32Wrap (RECORD_SIZE - 1 + U32_LIMIT - u32Wrap (k / 8)) = 31 - k / 8 := by
    rw [show RECORD_SIZE = 32 from rfl, u32Wrap, u32Wrap]
    have hlt1 : k / 8 < U32_LIMIT := by omega
    rw [Nat.mod_eq_of_lt hlt1]
    have h1 : 32 - 1 + U32_LIMIT - k / 8 = U32_LIMIT + (31 - k / 8) := by omega
    rw [h1, Nat.add_mod_left]
    have hlt2 : 31 - k / 8 < U32_LIMIT := by omega
    rw [Nat.mod_eq_of_lt hlt2]
  have hlo3 : u32Wrap (32 * i + (31 - k / 8)) = 32 * i + (31 - k / 8) := by
    have hlt : 32 * i + (31 - k / 8) < U32_LIMIT := by omega
    rw [u32Wrap, Nat.mod_eq_of_lt hlt]
  simp only [check_history_updated, hlo1, hlo2, hlo3]
  rw [getD_blocks ws i (31 - k / 8) hb]
  by_cases hi : i < ws.length
  · rw [if_pos hi, getD_u256ToBeBytes _ _ hb]
    have h31 : 31 - (31 - k / 8) = k / 8 := by omega
    rw [h31]
    have h256 : (256 : Nat) = 2 ^ 8 := by norm_num
    rw [h256, and_pow_beq_eq_testBit, Nat.testBit_mod_two_pow]
    have hmod8 : decide (k % 8 < 8) = true := by
      rw [decide_eq_true_eq]
      omega
    rw [hmod8, Bool.true_and, ← Nat.shiftRight_eq_div_pow, Nat.testBit_shiftRight]
    congr 1
    omega
  · rw [if_neg hi, List.getD_eq_default _ _ (by omega), Nat.zero_and]
    rw [Nat.zero_testBit, beq_eq_false_iff_ne]
    exact (pow_pos (by norm_num : (0:Nat) < 2) (k % 8)).ne


end Mapping

/-- C9: for every state, asset index `a`, timestamp and decimals setting, the
cross price of the pair `(a, a)` is exactly `10 ^ decimals` (wrapped with the
second-normalized timestamp), returned before any price lookup and therefore
independent of stored data. -/
theorem c9_cross_identity (st : OracleState) (a ts decimals : Nat) :
    Prices.load_cross_price st (a, a) ts decimals =
      (some (Prices.normalize_price_data ((10 : Int) ^ decimals) ts), st) := by
  simp [Prices.load_cross_price]

/-- C5 counterexample: with resolution 500 ms, stored last timestamp 1000 ms
and ledger time 2000 ms, the last timestamp is exactly two resolutions old —
not *more* than two resolutions old as the claim requires for a zero result —
yet `obtain_last_record_timestamp` returns 0 instead of the stored 1000. -/
theorem c5_boundary_counterexample :
    Prices.obtain_last_record_timestamp twoResState = 0 ∧
    twoResState.lastTimestamp = 1000 ∧
    twoResState.lastTimestamp ≤ Timestamps.ledger_timestamp twoResState ∧
    Timestamps.ledger_timestamp twoResState - twoResState.lastTimestamp =
      2 * twoResState.resolution := by
  decide

/-- C5 (amended): `obtain_last_record_timestamp` returns 0 exactly when no
price exists yet (stored last timestamp 0), the stored last timestamp is in
the future, or it is **at least** two resolutions old (the gate is `≥ 2 *
resolution`, not strictly more); in every other case it returns the stored
last timestamp unchanged. -/
theorem c5_last_valid_timestamp (st : OracleState) :
    (Prices.obtain_last_record_timestamp st = 0 ↔
      (st.lastTimestamp = 0 ∨ Timestamps.ledger_timestamp st < st.lastTimestamp ∨
        st.resolution * 2 ≤ Timestamps.ledger_timestamp st - st.lastTimestamp))
    ∧ (¬(st.lastTimestamp = 0 ∨ Timestamps.ledger_timestamp st < st.lastTimestamp ∨
          st.resolution * 2 ≤ Timestamps.ledger_timestamp st - st.lastTimestamp) →
        Prices.obtain_last_record_timestamp st = st.lastTimestamp) := by
  simp only [Prices.obtain_last_record_timestamp, Prices.get_last_timestamp]
  split_ifs with h
  · refine ⟨iff_of_true rfl ?_, fun hc => absurd ?_ hc⟩
    · rcases h with h | h | h
      · exact Or.inl h
      · exact Or.inr (Or.inl h)
      · exact Or.inr (Or.inr h)
    · rcases h with h | h | h
      · exact Or.inl h
      · exact Or.inr (Or.inl h)
      · exact Or.inr (Or.inr h)
  · constructor
    · constructor
      · intro h0
        exact Or.inl h0
      · intro hc
        exfalso
        apply h
        rcases hc with hc | hc | hc
        · exact Or.inl hc
        · exact Or.inr (Or.inl hc)
        · exact Or.inr (Or.inr hc)
    · intro _
      rfl

/-- C5 witness: a fresh state (resolution 500 ms, last timestamp 1000 ms,
ledger 1000 ms) triggers none of the zero conditions, and the function
returns the stored timestamp. -/
theorem c5_witness :
    ¬(freshLastState.lastTimestamp = 0 ∨
       Timestamps.ledger_timestamp freshLastState < freshLastState.lastTimestamp ∨
       freshLastState.resolution * 2 ≤
         Timestamps.ledger_timestamp freshLastState - freshLastState.lastTimestamp) ∧
    Prices.obtain_last_record_timestamp freshLastState = 1000 :=
  ⟨by decide, (c5_last_valid_timestamp freshLastState).2 (by decide)⟩

/-- A wrapped value already inside `[0, 2 ^ 127)` is returned unchanged. -/
theorem wrap128_eq_of_lt (x : Int) (h0 : 0 ≤ x) (h : x < 2 ^ 127) :
    Prices.wrap128 x = x := by
  simp only [Prices.wrap128]
  rw [Int.emod_eq_of_lt h0 (by omega), if_pos h]

/-- Truncating division of a non-negative numerator by a positive denominator
is zero exactly when the numerator is smaller. -/
theorem tdiv_eq_zero_iff_lt (a b : Int) (ha : 0 ≤ a) (hb : 0 < b) :
    Int.tdiv a b = 0 ↔ a < b := by
  rw [Int.tdiv_eq_ediv ha hb.le]
  constructor
  · intro h
    by_contra hge
    push_neg at hge
    have h1 : (1 : Int) ≤ a / b := by
      rw [Int.le_ediv_iff_mul_le hb]
      omega
    omega
  · intro h
    exact Int.ediv_eq_zero_of_lt ha h

/-- Powers of ten up to `10 ^ 38` stay below `2 ^ 127` (fit in `i128`). -/
theorem pow_ten_lt_two_pow_127 (B : Nat) (h : B ≤ 38) : (10 : Int) ^ B < 2 ^ 127 :=
  calc (10 : Int) ^ B ≤ 10 ^ 38 := pow_le_pow_right₀ (by norm_num) h
  _ < 2 ^ 127 := by norm_num

set_option maxRecDepth 8192 in
/-- C2 counterexample: with a strictly positive dividend `10 ^ 38` and
divisor `5` (decimals 14) the claim demands success, but the right-shifted
divisor `5 / 10 ^ 14` truncates to zero and the final division is a fatal
division by zero (a panic in every build profile). -/
theorem c2_positive_failure :
    (0 : Int) < 10 ^ 38 ∧ (0 : Int) < 5 ∧
    Prices.fixed_div_floor (10 ^ 38) 5 14 = none := by
  decide

set_option maxRecDepth 8192 in
/-- C2 (amended): `fixed_div_floor` fails on any non-positive dividend or
divisor; for strictly positive operands at a precision of at most 38 decimals
it fails exactly when the divisor truncates to zero
(`divisor < 10 ^ bshift`), and whenever additionally the scaled dividend fits
in `i128` it returns the floor of the scaled quotient.  An over-scaled
dividend does NOT fail: the release-build multiplication wraps, e.g.
`fixed_div_floor 2 1 38` returns the negative `2 * 10 ^ 38 - 2 ^ 128`.  On
the spec's concrete case (154467226919499, 133928752749774, 14) it returns
exactly 115335373284703. -/
theorem c2_fixed_div_floor (dividend divisor : Int) (decimals : Nat) :
    ((dividend ≤ 0 ∨ divisor ≤ 0) → Prices.fixed_div_floor dividend divisor decimals = none)
    ∧ (0 < dividend → 0 < divisor → decimals ≤ 38 →
        (Prices.fixed_div_floor dividend divisor decimals = none ↔
          divisor < 10 ^ (decimals - min (38 - Prices.ilog10 dividend.toNat) decimals)))
    ∧ (0 < dividend → 0 < divisor → decimals ≤ 38 →
        dividend * 10 ^ (min (38 - Prices.ilog10 dividend.toNat) decimals) < 2 ^ 127 →
        10 ^ (decimals - min (38 - Prices.ilog10 dividend.toNat) decimals) ≤ divisor →
        Prices.fixed_div_floor dividend divisor decimals =
          some (Int.tdiv
            (dividend * 10 ^ (min (38 - Prices.ilog10 dividend.toNat) decimals))
            (Int.tdiv divisor
              (10 ^ (decimals - min (38 - Prices.ilog10 dividend.toNat) decimals)))))
    ∧ Prices.fixed_div_floor 2 1 38 = some (2 * 10 ^ 38 - 2 ^ 128)
    ∧ Prices.fixed_div_floor 154467226919499 133928752749774 14 = some 115335373284703 := by
  refine ⟨?_, ?_, ?_, by decide, by decide⟩
  · intro h
    unfold Prices.fixed_div_floor
    rw [if_pos h]
  · intro hd hv hdec
    have hguard : ¬(dividend ≤ 0 ∨ divisor ≤ 0) := by omega
    simp only [Prices.fixed_div_floor, if_neg hguard]
    have hB38 : decimals - min (38 - Prices.ilog10 dividend.toNat) decimals ≤ 38 := by omega
    have hwp : Prices.wrap128
        ((10 : Int) ^ (decimals - min (38 - Prices.ilog10 dividend.toNat) decimals)) =
        10 ^ (decimals - min (38 - Prices.ilog10 dividend.toNat) decimals) :=
      wrap128_eq_of_lt _ (by positivity) (pow_ten_lt_two_pow_127 _ hB38)
    rw [hwp]
    have hvv : (if 0 < decimals - min (38 - Prices.ilog10 dividend.toNat) decimals then
        Int.tdiv divisor
          (10 ^ (decimals - min (38 - Prices.ilog10 dividend.toNat) decimals))
        else divisor) =
        Int.tdiv divisor
          (10 ^ (decimals - min (38 - Prices.ilog10 dividend.toNat) decimals)) := by
      split
      · rfl
      · rename_i hB
        have h0 : decimals - min (38 - Prices.ilog10 dividend.toNat) decimals = 0 := by omega
        rw [h0]
        simp
    rw [hvv]
    have hiff := tdiv_eq_zero_iff_lt divisor
      ((10 : Int) ^ (decimals - min (38 - Prices.ilog10 dividend.toNat) decimals))
      hv.le (by positivity)
    by_cases hQ : Int.tdiv divisor
        ((10 : Int) ^ (decimals - min (38 - Prices.ilog10 dividend.toNat) decimals)) = 0
    · rw [if_pos hQ]
      exact iff_of_true rfl (hiff.mp hQ)
    · rw [if_neg hQ]
      have hQnn : 0 ≤ Int.tdiv divisor
          ((10 : Int) ^ (decimals - min (38 - Prices.ilog10 dividend.toNat) decimals)) :=
        Int.tdiv_nonneg hv.le (by positivity)
      rw [if_neg (by rintro ⟨-, h1⟩; omega)]
      exact iff_of_false (by simp) (fun hlt => hQ (hiff.mpr hlt))
  · intro hd hv hdec hnw hge
    have hguard : ¬(dividend ≤ 0 ∨ divisor ≤ 0) := by omega
    simp only [Prices.fixed_div_floor, if_neg hguard]
    have hB38 : decimals - min (38 - Prices.ilog10 dividend.toNat) decimals ≤ 38 := by omega
    have hwp : Prices.wrap128
        ((10 : Int) ^ (decimals - min (38 - Prices.ilog10 dividend.toNat) decimals)) =
        10 ^ (decimals - min (38 - Prices.ilog10 dividend.toNat) decimals) :=
      wrap128_eq_of_lt _ (by positivity) (pow_ten_lt_two_pow_127 _ hB38)
    rw [hwp]
    have hvd : (if 0 < min (38 - Prices.ilog10 dividend.toNat) decimals then
        Prices.wrap128 (dividend * 10 ^ (min (38 - Prices.ilog10 dividend.toNat) decimals))
        else dividend) =
        dividend * 10 ^ (min (38 - Prices.ilog10 dividend.toNat) decimals) := by
      split
      · exact wrap128_eq_of_lt _ (mul_nonneg hd.le (by positivity)) hnw
      · rename_i hA
        have h0 : min (38 - Prices.ilog10 dividend.toNat) decimals = 0 := by omega
        rw [h0]
        simp
    have hvv : (if 0 < decimals - min (38 - Prices.ilog10 dividend.toNat) decimals then
        Int.tdiv divisor
          (10 ^ (decimals - min (38 - Prices.ilog10 dividend.toNat) decimals))
        else divisor) =
        Int.tdiv divisor
          (10 ^ (decimals - min (38 - Prices.ilog10 dividend.toNat) decimals)) := by
      split
      · rfl
      · rename_i hB
        have h0 : decimals - min (38 - Prices.ilog10 dividend.toNat) decimals = 0 := by omega
        rw [h0]
        simp
    rw [hvd, hvv]
    have hQ : ¬ Int.tdiv divisor
        ((10 : Int) ^ (decimals - min (38 - Prices.ilog10 dividend.toNat) decimals)) = 0 := by
      rw [tdiv_eq_zero_iff_lt divisor _ hv.le (by positivity)]
      omega
    rw [if_neg hQ]
    have hQnn : 0 ≤ Int.tdiv divisor
        ((10 : Int) ^ (decimals - min (38 - Prices.ilog10 dividend.toNat) decimals)) :=
      Int.tdiv_nonneg hv.le (by positivity)
    rw [if_neg (by rintro ⟨-, h1⟩; omega)]

set_option maxRecDepth 8192 in
/-- C2 witness: the amended characterization applied at concrete inputs — a
negative dividend fails, positive operands with a divisor below
`10 ^ bshift` fail (division by zero), and the spec's test vector succeeds
through the in-range floor formula. -/
theorem c2_witness :
    Prices.fixed_div_floor (-1) 5 14 = none ∧
    Prices.fixed_div_floor (10 ^ 30) 5 14 = none ∧
    Prices.fixed_div_floor 154467226919499 133928752749774 14 =
      some (Int.tdiv
        (154467226919499 * 10 ^ (min (38 - Prices.ilog10 (154467226919499 : Int).toNat) 14))
        (Int.tdiv 133928752749774
          (10 ^ (14 - min (38 - Prices.ilog10 (154467226919499 : Int).toNat) 14)))) :=
  ⟨(c2_fixed_div_floor (-1) 5 14).1 (Or.inl (by decide)),
   ((c2_fixed_div_floor (10 ^ 30) 5 14).2.1 (by decide) (by decide) (by decide)).mpr (by decide),
   (c2_fixed_div_floor 154467226919499 133928752749774 14).2.2.1
     (by decide) (by decide) (by decide) (by decide) (by decide)⟩

/-- C7: starting from Legacy (version 1) with no pending upgrade timestamp and
a nonzero current ledger time `t0` (seconds), the first version check records
`t0` (in ms) as pending and reports Legacy; every later check at most 24 hours
after the pending timestamp reports Legacy without changing state; a check
strictly more than 24 hours later flips the version to 2, clears the pending
marker and reports Current in that same call; and any state already at
version 2 reports Current forever without change. -/
theorem c7_protocol_gate (st : OracleState) (t0 : Nat)
    (hver : Protocol.get_protocol_version st = 1)
    (hpend : st.protocolUpdateTs = 0) (ht0 : 0 < t0) :
    Protocol.at_latest_protocol_version { st with ledgerSeconds := t0 } =
      (false, { st with ledgerSeconds := t0, protocolUpdateTs := t0 * 1000 })
    ∧ (∀ t, t * 1000 ≤ t0 * 1000 + Timestamps.days_to_milliseconds 1 →
        Protocol.at_latest_protocol_version
            { st with ledgerSeconds := t, protocolUpdateTs := t0 * 1000 } =
          (false, { st with ledgerSeconds := t, protocolUpdateTs := t0 * 1000 }))
    ∧ (∀ t, t0 * 1000 + Timestamps.days_to_milliseconds 1 < t * 1000 →
        Protocol.at_latest_protocol_version
            { st with ledgerSeconds := t, protocolUpdateTs := t0 * 1000 } =
          (true, { st with
                    ledgerSeconds := t, protocolUpdateTs := 0,
                    protocolVersion := some Protocol.CURRENT_PROTOCOL }))
    ∧ (∀ st2 : OracleState, Protocol.get_protocol_version st2 = 2 →
        Protocol.at_latest_protocol_version st2 = (true, st2)) := by
  have hver' : st.protocolVersion.getD 1 = 1 := hver
  refine ⟨?_, ?_, ?_, ?_⟩
  · simp [Protocol.at_latest_protocol_version, Protocol.get_protocol_version,
      Protocol.CURRENT_PROTOCOL, hver', Protocol.schedule_update, hpend,
      Protocol.set_protocol_upgrade_timestamp, Timestamps.ledger_timestamp]
  · intro t ht
    have hne : ¬ (t0 * 1000 = 0) := by omega
    have hmature : ¬ (t0 * 1000 + Timestamps.days_to_milliseconds 1 < t * 1000) := by omega
    simp [Protocol.at_latest_protocol_version, Protocol.get_protocol_version,
      Protocol.CURRENT_PROTOCOL, hver', Protocol.schedule_update, hne, hmature,
      Timestamps.ledger_timestamp]
  · intro t ht
    have hne : ¬ (t0 * 1000 = 0) := by omega
    simp [Protocol.at_latest_protocol_version, Protocol.get_protocol_version,
      Protocol.CURRENT_PROTOCOL, hver', Protocol.schedule_update, hne, ht,
      Protocol.set_protocol_upgrade_timestamp, Protocol.set_protocol_version,
      Timestamps.ledger_timestamp]
  · intro st2 h2
    simp [Protocol.at_latest_protocol_version, Protocol.CURRENT_PROTOCOL, h2]

/-- C7 witness: from the base state at ledger second 1000, the first check
reports Legacy and records pending 1000000 ms; a check at second 83800
(23 h 16 min 40 s later) still reports Legacy; a check at second 87401
(one second past the 24-hour maturity) reports Current and clears pending. -/
theorem c7_witness :
    Protocol.get_protocol_version baseState = 1 ∧ baseState.protocolUpdateTs = 0 ∧
    Protocol.at_latest_protocol_version { baseState with ledgerSeconds := 1000 } =
      (false, { baseState with ledgerSeconds := 1000, protocolUpdateTs := 1000000 }) ∧
    Protocol.at_latest_protocol_version
        { baseState with ledgerSeconds := 83800, protocolUpdateTs := 1000000 } =
      (false, { baseState with ledgerSeconds := 83800, protocolUpdateTs := 1000000 }) ∧
    Protocol.at_latest_protocol_version
        { baseState with ledgerSeconds := 87401, protocolUpdateTs := 1000000 } =
      (true, { baseState with
                ledgerSeconds := 87401, protocolUpdateTs := 0,
                protocolVersion := some Protocol.CURRENT_PROTOCOL }) := by
  have h := c7_protocol_gate baseState 1000 (by decide) (by decide) (by decide)
  refine ⟨by decide, by decide, h.1, ?_, ?_⟩
  · exact h.2.1 83800 (by decide)
  · exact h.2.2.1 87401 (by decide)

theorem loadPricesLoop_length_le (f : Nat → Option PriceData) (res : Nat) :
    ∀ (fuel ts : Nat) (acc : List PriceData),
      (Prices.loadPricesLoop f res fuel ts acc).length ≤ acc.length + fuel := by
  intro fuel
  induction fuel with
  | zero =>
    intro ts acc
    simp [Prices.loadPricesLoop]
  | succ fuel ih =>
    intro ts acc
    rw [Prices.loadPricesLoop]
    have hstep : ∀ acc' : List PriceData, acc'.length ≤ acc.length + 1 →
        (if ts < res then acc'
         else Prices.loadPricesLoop f res fuel (ts - res) acc').length ≤
          acc.length + (fuel + 1) := by
      intro acc' hacc
      split
      · omega
      · calc (Prices.loadPricesLoop f res fuel (ts - res) acc').length
            ≤ acc'.length + fuel := ih (ts - res) acc'
          _ ≤ acc.length + (fuel + 1) := by omega
    cases hf : f ts with
    | none => exact hstep acc (by omega)
    | some p => exact hstep (acc ++ [p]) (by simp)

theorem load_prices_length_le (st : OracleState) (f : Nat → Option PriceData)
    (n : Nat) (l : List PriceData) (h : Prices.load_prices st f n = some l) :
    l.length ≤ min n 20 := by
  simp only [Prices.load_prices] at h
  split_ifs at h
  injection h with h'
  rw [← h']
  simpa using loadPricesLoop_length_le f st.resolution (min n 20)
    (Prices.obtain_last_record_timestamp st) []

/-- C6: `calculate_twap` is strict — whenever the backward range walk finds
fewer than the requested `n` records, the TWAP is `none` (never a partial
average); and since the walk visits at most `min(n, 20)` periods, every
request with `n > 20` yields `none`. -/
theorem c6_twap_strict (st : OracleState) (f : Nat → Option PriceData) (n : Nat) :
    ((match Prices.load_prices st f n with
      | none => 0
      | some l => l.length) < n → Prices.calculate_twap st f n = none)
    ∧ (20 < n → Prices.calculate_twap st f n = none) := by
  constructor
  · intro hfew
    cases h : Prices.load_prices st f n with
    | none =>
      unfold Prices.calculate_twap
      rw [h]
    | some l =>
      rw [h] at hfew
      simp only at hfew
      have hne : l.length ≠ n := by omega
      unfold Prices.calculate_twap
      rw [h]
      simp [hne]
  · intro h20
    cases h : Prices.load_prices st f n with
    | none =>
      unfold Prices.calculate_twap
      rw [h]
    | some l =>
      have hlen := load_prices_length_le st f n l h
      have hne : l.length ≠ n := by omega
      unfold Prices.calculate_twap
      rw [h]
      simp [hne]

/-- C6 witness: on the empty base state (no last timestamp) with an accessor
that never answers, requesting 5 records finds 0 of them and the TWAP is
`none`; requesting 21 records also yields `none`. -/
theorem c6_witness :
    ((match Prices.load_prices baseState (fun _ => none) 5 with
      | none => 0
      | some l => l.length) < 5) ∧
    Prices.calculate_twap baseState (fun _ => none) 5 = none ∧
    Prices.calculate_twap baseState (fun _ => none) 21 = none := by
  refine ⟨by decide, (c6_twap_strict baseState (fun _ => none) 5).1 (by decide),
    (c6_twap_strict baseState (fun _ => none) 21).2 (by decide)⟩

theorem extractPricesGo_eq_none_iff (u : PriceUpdate) :
    ∀ (r a i : Nat) (acc : List Int), i ≤ u.prices.length →
      (Prices.extractPricesGo u r a i acc = none ↔
        u.prices.length < i + countMaskBits u.mask a r) := by
  intro r
  induction r with
  | zero =>
    intro a i acc hi
    simp only [Prices.extractPricesGo, countMaskBits]
    constructor
    · intro hc
      exact absurd hc (by simp)
    · intro hc
      omega
  | succ r ih =>
    intro a i acc hi
    rw [Prices.extractPricesGo, countMaskBits]
    by_cases hbit : Mapping.check_period_updated u.mask a
    · rw [if_pos hbit, if_pos hbit]
      rcases Nat.lt_or_ge i u.prices.length with hlt | hge
      · have hget : u.prices.get? i = some (u.prices.get ⟨i, hlt⟩) := List.get?_eq_get hlt
        rw [hget]
        rw [ih (a + 1) (i + 1) (acc ++ [u.prices.get ⟨i, hlt⟩]) (by omega)]
        omega
      · have hieq : i = u.prices.length := by omega
        have hget : u.prices.get? i = none := by
          rw [List.get?_eq_none]
          omega
        rw [hget]
        constructor
        · intro _
          omega
        · intro _
          rfl
    · rw [if_neg hbit, if_neg hbit]
      rw [ih (a + 1) i (acc ++ [0]) hi]
      omega

theorem extract_none_iff (u : PriceUpdate) (total : Nat) :
    Prices.extract_update_record_prices u total = none ↔
      u.prices.length < countMaskBits u.mask 0 total := by
  unfold Prices.extract_update_record_prices
  simpa using extractPricesGo_eq_none_iff u total 0 0 [] (by omega)

/-- C3 (amended): `set_price` silently skips (no state change) exactly when
the update carries zero prices; it is fatal exactly when the declared price
count exceeds the registered asset count, the timestamp is zero, not
period-aligned, or in the future, or the popcount of the mask over the
registered assets exceeds the price count (out-of-bounds extraction);
updates whose price vector is longer than the mask popcount are accepted
with the surplus prices ignored, contrary to the claim that any
prices/mask length mismatch is fatal. -/
theorem c3_set_price_outcomes (st : OracleState) (update : PriceUpdate) (ts : Nat) :
    (update.prices = [] → PriceOracle.set_price st update ts = .skipped st)
    ∧ (update.prices ≠ [] →
        ((PriceOracle.set_price st update ts).isFatal = true ↔
          (st.assetsList.length < update.prices.length ∨
           ts = 0 ∨ Timestamps.is_valid st.resolution ts = false ∨
           Timestamps.ledger_timestamp st < ts ∨
           update.prices.length < countMaskBits update.mask 0 st.assetsList.length)))
    ∧ (update.prices ≠ [] →
        ((PriceOracle.set_price st update ts).isAccepted = true ↔
          ¬(st.assetsList.length < update.prices.length ∨
            ts = 0 ∨ Timestamps.is_valid st.resolution ts = false ∨
            Timestamps.ledger_timestamp st < ts ∨
            update.prices.length < countMaskBits update.mask 0 st.assetsList.length))) := by
  refine ⟨?_, ?_, ?_⟩
  · intro hempty
    unfold PriceOracle.set_price
    rw [if_pos (by simp [hempty])]
  · intro hne
    have hlen0 : ¬ update.prices.length = 0 := by
      simpa [List.length_eq_zero] using hne
    unfold PriceOracle.set_price
    rw [if_neg hlen0]
    by_cases h1 : update.prices.length > st.assetsList.length
    · rw [if_pos h1]
      exact iff_of_true rfl (Or.inl h1)
    · rw [if_neg h1]
      by_cases h2 : ts = 0 ∨ Timestamps.is_valid st.resolution ts = false ∨
          ts > Timestamps.ledger_timestamp st
      · rw [if_pos h2]
        refine iff_of_true rfl ?_
        rcases h2 with h2 | h2 | h2
        · exact Or.inr (Or.inl h2)
        · exact Or.inr (Or.inr (Or.inl h2))
        · exact Or.inr (Or.inr (Or.inr (Or.inl h2)))
      · rw [if_neg h2]
        cases hext : Prices.extract_update_record_prices update st.assetsList.length with
        | none =>
          refine iff_of_true rfl ?_
          exact Or.inr (Or.inr (Or.inr (Or.inr ((extract_none_iff _ _).mp hext))))
        | some ps =>
          refine iff_of_false (by simp [SetPriceOutcome.isFatal]) ?_
          rintro (hc | hc | hc | hc | hc)
          · exact h1 hc
          · exact h2 (Or.inl hc)
          · exact h2 (Or.inr (Or.inl hc))
          · exact h2 (Or.inr (Or.inr hc))
          · rw [← extract_none_iff update st.assetsList.length] at hc
            rw [hext] at hc
            exact absurd hc (by simp)
  · intro hne
    have hlen0 : ¬ update.prices.length = 0 := by
      simpa [List.length_eq_zero] using hne
    unfold PriceOracle.set_price
    rw [if_neg hlen0]
    by_cases h1 : update.prices.length > st.assetsList.length
    · rw [if_pos h1]
      exact iff_of_false (by simp [SetPriceOutcome.isAccepted]) (by tauto)
    · rw [if_neg h1]
      by_cases h2 : ts = 0 ∨ Timestamps.is_valid st.resolution ts = false ∨
          ts > Timestamps.ledger_timestamp st
      · rw [if_pos h2]
        refine iff_of_false (by simp [SetPriceOutcome.isAccepted]) ?_
        intro hc
        apply hc
        rcases h2 with h2 | h2 | h2
        · exact Or.inr (Or.inl h2)
        · exact Or.inr (Or.inr (Or.inl h2))
        · exact Or.inr (Or.inr (Or.inr (Or.inl h2)))
      · rw [if_neg h2]
        cases hext : Prices.extract_update_record_prices update st.assetsList.length with
        | none =>
          refine iff_of_false (by simp [SetPriceOutcome.isAccepted]) ?_
          intro hc
          exact hc (Or.inr (Or.inr (Or.inr (Or.inr ((extract_none_iff _ _).mp hext)))))
        | some ps =>
          refine iff_of_true rfl ?_
          rintro (hc | hc | hc | hc | hc)
          · exact h1 hc
          · exact h2 (Or.inl hc)
          · exact h2 (Or.inr (Or.inl hc))
          · exact h2 (Or.inr (Or.inr hc))
          · rw [← extract_none_iff update st.assetsList.length] at hc
            rw [hext] at hc
            exact absurd hc (by simp)

/-- C3 counterexample: with three registered assets, an aligned non-future
timestamp and an update whose two prices come with an all-zero mask
(prices length 2, mask popcount 0 — a prices/mask mismatch), `set_price`
accepts the update instead of aborting. -/
theorem c3_mismatch_accepted :
    (PriceOracle.set_price threeAssetState mismatchUpdate 1000).isAccepted = true ∧
    mismatchUpdate.prices.length = 2 ∧
    countMaskBits mismatchUpdate.mask 0 threeAssetState.assetsList.length = 0 := by
  decide

/-- C3 witness: in the same state, a well-formed single-asset update (mask
popcount 1, one price) at an aligned past timestamp is accepted. -/
theorem c3_witness :
    singleAssetUpdate.prices ≠ [] ∧
    (PriceOracle.set_price threeAssetState singleAssetUpdate 1000).isAccepted = true :=
  ⟨by decide, ((c3_set_price_outcomes threeAssetState singleAssetUpdate 1000).2.2
    (by decide)).mpr (by decide)⟩

theorem resolve_asset_index_cons (b : Asset) (v : Nat) (m : List (Asset × Nat)) (a : Asset) :
    Assets.resolve_asset_index ((b, v) :: m) a =
      if a = b then some v else Assets.resolve_asset_index m a := by
  by_cases h : a = b
  · subst h
    simp [Assets.resolve_asset_index]
  · rw [if_neg h]
    unfold Assets.resolve_asset_index
    rw [List.find?_cons_of_neg]
    simp only [beq_iff_eq]
    exact fun hc => h hc.symm

theorem addAssetsGo_ok (feeSet : Bool) (expTs : Nat) :
    ∀ (batch : List Asset) (indexMap : List (Asset × Nat)) (assetList : List Asset)
      (expiration : List Nat),
    batch.Nodup → (∀ a ∈ batch, Assets.resolve_asset_index indexMap a = none) →
    ∃ indexMap' expiration',
      Assets.addAssetsGo feeSet expTs indexMap assetList expiration batch =
        .ok (indexMap', assetList ++ batch, expiration') ∧
      (∀ j (hj : j < batch.length),
        Assets.resolve_asset_index indexMap' (batch.get ⟨j, hj⟩) =
          some (assetList.length + j)) ∧
      (∀ a, a ∉ batch →
        Assets.resolve_asset_index indexMap' a = Assets.resolve_asset_index indexMap a) := by
  intro batch
  induction batch with
  | nil =>
    intro indexMap assetList expiration _ _
    refine ⟨indexMap, expiration, by simp [Assets.addAssetsGo], ?_, fun a _ => rfl⟩
    intro j hj
    exact absurd hj (by simp)
  | cons a rest ih =>
    intro indexMap assetList expiration hnodup hnew
    have hnr := List.nodup_cons.mp hnodup
    have hresa : Assets.resolve_asset_index indexMap a = none :=
      hnew a (List.mem_cons_self a rest)
    have hnewrest : ∀ b ∈ rest,
        Assets.resolve_asset_index ((a, assetList.length) :: indexMap) b = none := by
      intro b hb
      have hba : ¬ b = a := fun hc => hnr.1 (hc ▸ hb)
      rw [resolve_asset_index_cons, if_neg hba]
      exact hnew b (List.mem_cons_of_mem a hb)
    obtain ⟨M, E, hgo, hidx, hframe⟩ := ih ((a, assetList.length) :: indexMap)
      (assetList ++ [a])
      (if feeSet ∧ expTs > 0 then expiration ++ [expTs] else expiration) hnr.2 hnewrest
    refine ⟨M, E, ?_, ?_, ?_⟩
    · rw [Assets.addAssetsGo]
      rw [if_neg (by rw [hresa]; simp)]
      rw [hgo]
      simp [List.append_assoc]
    · intro j hj
      cases j with
      | zero =>
        have hget : (a :: rest).get ⟨0, hj⟩ = a := rfl
        rw [hget, hframe a hnr.1, resolve_asset_index_cons, if_pos rfl]
        simp
      | succ j =>
        have hj' : j < rest.length := by simpa using hj
        have hget : (a :: rest).get ⟨j + 1, hj⟩ = rest.get ⟨j, hj'⟩ := rfl
        rw [hget, hidx j hj']
        congr 1
        simp
        omega
    · intro b hb
      have hbrest : b ∉ rest := fun hc => hb (List.mem_cons_of_mem a hc)
      have hba : ¬ b = a := fun hc => hb (hc ▸ List.mem_cons_self a rest)
      rw [hframe b hbrest, resolve_asset_index_cons, if_neg hba]

theorem addAssetsGo_err (feeSet : Bool) (expTs : Nat) :
    ∀ (batch : List Asset) (indexMap : List (Asset × Nat)) (assetList : List Asset)
      (expiration : List Nat),
    ¬(batch.Nodup ∧ ∀ a ∈ batch, Assets.resolve_asset_index indexMap a = none) →
    Assets.addAssetsGo feeSet expTs indexMap assetList expiration batch =
      .error .assetAlreadyExists := by
  intro batch
  induction batch with
  | nil =>
    intro indexMap assetList expiration h
    exact absurd ⟨List.nodup_nil, by simp⟩ h
  | cons a rest ih =>
    intro indexMap assetList expiration h
    by_cases hres : Assets.resolve_asset_index indexMap a = none
    · rw [Assets.addAssetsGo, if_neg (by rw [hres]; simp)]
      apply ih
      rintro ⟨hnd, hall⟩
      apply h
      have hnotin : a ∉ rest := by
        intro hmem
        have := hall a hmem
        rw [resolve_asset_index_cons, if_pos rfl] at this
        exact absurd this (by simp)
      refine ⟨List.nodup_cons.mpr ⟨hnotin, hnd⟩, ?_⟩
      intro b hb
      rcases List.mem_cons.mp hb with hb | hb
      · exact hb ▸ hres
      · have hba : ¬ b = a := fun hc => hnotin (hc ▸ hb)
        have := hall b hb
        rw [resolve_asset_index_cons, if_neg hba] at this
        exact this
    · rw [Assets.addAssetsGo, if_pos (by simpa [Option.isSome_iff_ne_none] using hres)]

/-- C10 (amended): barring `u64` overflow of the expiration computation,
`add_assets` aborts with `AssetAlreadyExists` whenever the submitted batch
contains a duplicate or an already-registered asset; for an all-new,
duplicate-free batch it succeeds exactly when the registry size *after* the
append stays below 1000, appending the assets and assigning dense zero-based
indexes — a batch that would bring the total to 1000 or more aborts with
`AssetLimitExceeded`, so a registry holding 999 assets (fewer than the
claimed capacity 1000) can no longer accept any asset. -/
theorem c10_add_assets (st : OracleState) (assets : List Asset) (period : Nat)
    (hov : (Assets.get_expiration_timestamp st period).isSome = true) :
    (¬(assets.Nodup ∧ ∀ a ∈ assets,
        Assets.resolve_asset_index st.assetIndexMap a = none) →
      Assets.add_assets st assets period = .error .assetAlreadyExists)
    ∧ (assets.Nodup →
       (∀ a ∈ assets, Assets.resolve_asset_index st.assetIndexMap a = none) →
       ((st.assetsList.length + assets.length < 1000 →
         ∃ st', Assets.add_assets st assets period = .ok st' ∧
           st'.assetsList = st.assetsList ++ assets ∧
           ∀ j (hj : j < assets.length),
             Assets.resolve_asset_index st'.assetIndexMap (assets.get ⟨j, hj⟩) =
               some (st.assetsList.length + j))
        ∧ (1000 ≤ st.assetsList.length + assets.length →
           Assets.add_assets st assets period = .error .assetLimitExceeded))) := by
  obtain ⟨e, he⟩ := Option.isSome_iff_exists.mp hov
  constructor
  · intro hbad
    unfold Assets.add_assets
    rw [he]
    simp only [addAssetsGo_err st.feeConfigSet e assets st.assetIndexMap st.assetsList
      st.expiration hbad]
  · intro hnodup hnew
    obtain ⟨M, E, hgo, hidx, _⟩ := addAssetsGo_ok st.feeConfigSet e assets
      st.assetIndexMap st.assetsList st.expiration hnodup hnew
    constructor
    · intro hcap
      refine ⟨{ st with
                 assetIndexMap := M,
                 assetsList := st.assetsList ++ assets,
                 expiration := E }, ?_, by simp, ?_⟩
      · unfold Assets.add_assets
        rw [he]
        simp only [hgo]
        rw [if_neg (by simp [Assets.ASSET_LIMIT]; omega)]
      · intro j hj
        have := hidx j hj
        simpa using this
    · intro hcap
      unfold Assets.add_assets
      rw [he]
      simp only [hgo]
      rw [if_pos (by simp [Assets.ASSET_LIMIT]; omega)]

set_option maxRecDepth 200000 in
/-- C10 counterexample: a registry currently holding 999 assets — fewer than
the claimed capacity of 1000 — rejects a single fresh, unregistered asset
with `AssetLimitExceeded`, because the limit check fires once the post-append
size reaches 1000. -/
theorem c10_at_capacity :
    fullRegistryState.assetsList.length = 999 ∧
    Assets.resolve_asset_index fullRegistryState.assetIndexMap (Asset.stellar 999) = none ∧
    Assets.add_assets fullRegistryState [Asset.stellar 999] 0 =
      .error .assetLimitExceeded :=
  ⟨rfl, rfl, rfl⟩

/-- C10 witness: adding two fresh distinct assets to an empty registry
succeeds and assigns them indexes 0 and 1. -/
theorem c10_witness :
    (Assets.get_expiration_timestamp baseState 0).isSome = true ∧
    [Asset.stellar 0, Asset.stellar 1].Nodup ∧
    (∃ st', Assets.add_assets baseState [Asset.stellar 0, Asset.stellar 1] 0 = .ok st' ∧
      st'.assetsList = baseState.assetsList ++ [Asset.stellar 0, Asset.stellar 1] ∧
      ∀ j (hj : j < ([Asset.stellar 0, Asset.stellar 1] : List Asset).length),
        Assets.resolve_asset_index st'.assetIndexMap
            (([Asset.stellar 0, Asset.stellar 1] : List Asset).get ⟨j, hj⟩) =
          some (baseState.assetsList.length + j)) :=
  ⟨by decide, by decide,
   ((c10_add_assets baseState [Asset.stellar 0, Asset.stellar 1] 0 (by decide)).2
     (by decide) (by decide)).1 (by decide)⟩

theorem uhm_lastTimestamp (st : OracleState) (prices : List Int) (ts : Nat) :
    (Prices.update_history_mask st prices ts).lastTimestamp = st.lastTimestamp := rfl

theorem recordHistoryStep_resolution (st : OracleState) (prices : List Int) (ts : Nat) :
    (recordHistoryStep st prices ts).resolution = st.resolution := by
  simp only [recordHistoryStep]
  split <;> rfl

theorem recordHistoryStep_last (st : OracleState) (prices : List Int) (ts : Nat)
    (h : st.lastTimestamp ≤ ts) : (recordHistoryStep st prices ts).lastTimestamp = ts := by
  simp only [recordHistoryStep]
  split
  · rfl
  · rename_i hc
    have h1 : Prices.get_last_timestamp (Prices.update_history_mask st prices ts) =
        st.lastTimestamp := rfl
    rw [h1] at hc
    rw [uhm_lastTimestamp]
    omega

theorem recordHistoryStep_history (st : OracleState) (prices : List Int) (ts : Nat) :
    (recordHistoryStep st prices ts).history =
      (Prices.update_history_mask st prices ts).history := by
  simp only [recordHistoryStep]
  split <;> rfl

theorem uhm_history_gap (st : OracleState) (prices : List Int) (ts : Nat)
    (hlast : 0 < st.lastTimestamp) (hgt : st.lastTimestamp < ts) :
    (Prices.update_history_mask st prices ts).history =
      Mapping.update_history_mask
        (if 1 < (ts - st.lastTimestamp) / st.resolution then
          Prices.foldGapFills st.history prices.length
            ((ts - st.lastTimestamp) / st.resolution - 1)
         else st.history) prices := by
  have hc : st.lastTimestamp > 0 ∧ ts > st.lastTimestamp := ⟨hlast, hgt⟩
  simp only [Prices.update_history_mask, Prices.get_last_timestamp, Prices.get_history_map,
    if_pos hc]

theorem uhm_history_nogap (st : OracleState) (prices : List Int) (ts : Nat)
    (h : st.lastTimestamp > 0 → st.lastTimestamp < ts →
      (ts - st.lastTimestamp) / st.resolution ≤ 1) :
    (Prices.update_history_mask st prices ts).history =
      Mapping.update_history_mask st.history prices := by
  simp only [Prices.update_history_mask, Prices.get_last_timestamp, Prices.get_history_map]
  by_cases hc : st.lastTimestamp > 0 ∧ ts > st.lastTimestamp
  · rw [if_pos hc, if_neg (by have := h hc.1 hc.2; omega)]
  · rw [if_neg hc, if_neg (by omega)]

/-- C8: recording an update at period `t` and then one at `t + 3·resolution`
leaves the history bitmask (and the last-timestamp marker) in exactly the
same state as recording the update at `t`, explicit all-zero updates (one
zero per asset) at `t + resolution` and `t + 2·resolution`, and then the same
update at `t + 3·resolution`. -/
theorem c8_gap_filling (st : OracleState) (t n : Nat) (P1 P2 : List Int)
    (hres : 0 < st.resolution) (ht : 0 < t) (hlast : st.lastTimestamp ≤ t)
    (hP2 : P2.length = n) :
    (recordHistoryStep (recordHistoryStep st P1 t) P2 (t + 3 * st.resolution)).history =
      (recordHistoryStep (recordHistoryStep (recordHistoryStep (recordHistoryStep st P1 t)
          (List.replicate n 0) (t + st.resolution))
          (List.replicate n 0) (t + 2 * st.resolution)) P2 (t + 3 * st.resolution)).history
    ∧ (recordHistoryStep (recordHistoryStep st P1 t) P2
          (t + 3 * st.resolution)).lastTimestamp =
      (recordHistoryStep (recordHistoryStep (recordHistoryStep (recordHistoryStep st P1 t)
          (List.replicate n 0) (t + st.resolution))
          (List.replicate n 0) (t + 2 * st.resolution)) P2
            (t + 3 * st.resolution)).lastTimestamp := by
  have hmdc : ∀ m : Nat, m * st.resolution / st.resolution = m := by
    intro m
    exact Nat.mul_div_cancel m hres
  set st1 := recordHistoryStep st P1 t with hst1
  have h1l : st1.lastTimestamp = t := recordHistoryStep_last st P1 t hlast
  have h1r : st1.resolution = st.resolution := recordHistoryStep_resolution st P1 t
  -- path A: one call with a 3-period gap
  have hAd : (t + 3 * st.resolution - st1.lastTimestamp) / st1.resolution = 3 := by
    rw [h1l, h1r, show t + 3 * st.resolution - t = 3 * st.resolution by omega, hmdc 3]
  have hAhist : (recordHistoryStep st1 P2 (t + 3 * st.resolution)).history =
      Mapping.update_history_mask
        (Mapping.update_history_mask
          (Mapping.update_history_mask st1.history (List.replicate n 0))
          (List.replicate n 0)) P2 := by
    rw [recordHistoryStep_history,
      uhm_history_gap st1 P2 (t + 3 * st.resolution) (by omega) (by omega)]
    rw [hAd]
    rw [if_pos (by omega)]
    rw [show (3 : Nat) - 1 = 2 from rfl]
    simp [Prices.foldGapFills, hP2]
  have hAlast : (recordHistoryStep st1 P2 (t + 3 * st.resolution)).lastTimestamp =
      t + 3 * st.resolution :=
    recordHistoryStep_last st1 P2 _ (by omega)
  -- path B: three single-period calls
  set st2 := recordHistoryStep st1 (List.replicate n 0) (t + st.resolution) with hst2
  have h2l : st2.lastTimestamp = t + st.resolution :=
    recordHistoryStep_last st1 _ _ (by omega)
  have h2r : st2.resolution = st.resolution := by
    rw [hst2, recordHistoryStep_resolution, h1r]
  have h2hist : st2.history = Mapping.update_history_mask st1.history (List.replicate n 0) := by
    rw [hst2, recordHistoryStep_history]
    refine uhm_history_nogap st1 _ _ ?_
    intro _ _
    rw [h1l, h1r, show t + st.resolution - t = st.resolution by omega]
    simp [Nat.div_self hres]
  set st3 := recordHistoryStep st2 (List.replicate n 0) (t + 2 * st.resolution) with hst3
  have h3l : st3.lastTimestamp = t + 2 * st.resolution :=
    recordHistoryStep_last st2 _ _ (by omega)
  have h3r : st3.resolution = st.resolution := by
    rw [hst3, recordHistoryStep_resolution, h2r]
  have h3hist : st3.history = Mapping.update_history_mask st2.history (List.replicate n 0) := by
    rw [hst3, recordHistoryStep_history]
    refine uhm_history_nogap st2 _ _ ?_
    intro _ _
    rw [h2l, h2r, show t + 2 * st.resolution - (t + st.resolution) = st.resolution by omega]
    simp [Nat.div_self hres]
  have h4hist : (recordHistoryStep st3 P2 (t + 3 * st.resolution)).history =
      Mapping.update_history_mask st3.history P2 := by
    rw [recordHistoryStep_history]
    refine uhm_history_nogap st3 P2 _ ?_
    intro _ _
    rw [h3l, h3r, show t + 3 * st.resolution - (t + 2 * st.resolution) = st.resolution by omega]
    simp [Nat.div_self hres]
  have h4last : (recordHistoryStep st3 P2 (t + 3 * st.resolution)).lastTimestamp =
      t + 3 * st.resolution :=
    recordHistoryStep_last st3 P2 _ (by omega)
  constructor
  · rw [hAhist, h4hist, h3hist, h2hist]
  · rw [hAlast, h4last]

/-- C8 witness: with resolution 100 ms, starting from the base state, the
two recording orders agree on the concrete updates `[1]` at `t = 100` and
`[2]` at `t = 400`. -/
theorem c8_witness :
    (0 < (100 : Nat) ∧ (0 : Nat) < 100 ∧ baseState.lastTimestamp ≤ 100 ∧
      ([(2 : Int)] : List Int).length = 1) ∧
    (recordHistoryStep (recordHistoryStep { baseState with resolution := 100 } [1] 100)
        [2] (100 + 3 * 100)).history =
      (recordHistoryStep (recordHistoryStep (recordHistoryStep
          (recordHistoryStep { baseState with resolution := 100 } [1] 100)
          (List.replicate 1 0) (100 + 100))
          (List.replicate 1 0) (100 + 2 * 100)) [2] (100 + 3 * 100)).history := by
  refine ⟨⟨by decide, by decide, by decide, by decide⟩, ?_⟩
  have h := c8_gap_filling { baseState with resolution := 100 } 100 1 [1] [2]
    (by decide) (by decide) (by decide) (by decide)
  simpa using h.1

theorem at_latest_preserves (st : OracleState) :
    (Protocol.at_latest_protocol_version st).2.lastTimestamp = st.lastTimestamp ∧
    (Protocol.at_latest_protocol_version st).2.history = st.history := by
  simp only [Protocol.at_latest_protocol_version, Protocol.schedule_update,
    Protocol.set_protocol_upgrade_timestamp, Protocol.set_protocol_version]
  split_ifs <;> exact ⟨rfl, rfl⟩

theorem storeTail_preserves (st : OracleState) (v1 : List Int) (ts ltl : Nat) :
    ((if (Protocol.at_latest_protocol_version st).1 then (Protocol.at_latest_protocol_version st).2
      else Prices.store_price_v1 (Protocol.at_latest_protocol_version st).2 v1 ts ltl).lastTimestamp
        = st.lastTimestamp) ∧
    ((if (Protocol.at_latest_protocol_version st).1 then (Protocol.at_latest_protocol_version st).2
      else Prices.store_price_v1 (Protocol.at_latest_protocol_version st).2 v1 ts ltl).history
        = st.history) := by
  rcases at_latest_preserves st with ⟨hl, hh⟩
  split_ifs
  · exact ⟨hl, hh⟩
  · exact ⟨hl, hh⟩

theorem store_prices_preserves (st : OracleState) (update : PriceUpdate) (ts : Nat)
    (v1 : List Int) (h : ¬ ts > st.lastTimestamp) :
    (Prices.store_prices st update ts v1).lastTimestamp = st.lastTimestamp ∧
    (Prices.store_prices st update ts v1).history = st.history := by
  simp only [Prices.store_prices, Prices.get_last_timestamp]
  rw [if_neg h]
  by_cases hc :
      ({ st with tempRecords := setAssoc st.tempRecords ts update } : OracleState).cacheSize > 0
  · rw [if_pos hc]
    exact ⟨(storeTail_preserves _ _ _ _).1.trans rfl, (storeTail_preserves _ _ _ _).2.trans rfl⟩
  · rw [if_neg hc]
    exact ⟨(storeTail_preserves _ _ _ _).1.trans rfl, (storeTail_preserves _ _ _ _).2.trans rfl⟩

/-- C4: an accepted `set_price` whose (nonzero, aligned, non-future)
timestamp is strictly older than the stored last-timestamp marker leaves the
marker unchanged, yet still folds the update into every asset's history
window exactly once (the computed period delta is zero, so no gap filling
happens and the out-of-order record lands at bit offset 0 as if it were the
newest period). -/
theorem c4_out_of_order (st : OracleState) (update : PriceUpdate) (ts : Nat) (ps : List Int)
    (hne : update.prices ≠ [])
    (hcnt : update.prices.length ≤ st.assetsList.length)
    (hts0 : ts ≠ 0)
    (hvalid : Timestamps.is_valid st.resolution ts = true)
    (hfut : ts ≤ Timestamps.ledger_timestamp st)
    (hex : Prices.extract_update_record_prices update st.assetsList.length = some ps)
    (hold : ts < st.lastTimestamp) :
    ∃ st', PriceOracle.set_price st update ts = .accepted st' ∧
      st'.lastTimestamp = st.lastTimestamp ∧
      st'.history = Mapping.update_history_mask st.history ps := by
  have hlen0 : ¬ update.prices.length = 0 := by
    simpa [List.length_eq_zero] using hne
  have hnotbad : ¬(ts = 0 ∨ Timestamps.is_valid st.resolution ts = false ∨
      ts > Timestamps.ledger_timestamp st) := by
    rintro (hc | hc | hc)
    · exact hts0 hc
    · rw [hvalid] at hc
      exact Bool.noConfusion hc
    · omega
  unfold PriceOracle.set_price
  rw [if_neg hlen0, if_neg (by omega)]
  rw [if_neg hnotbad]
  simp only [hex]
  refine ⟨_, rfl, ?_, ?_⟩
  · have hstep := store_prices_preserves (Prices.update_history_mask st ps ts) update ts ps
      (by rw [uhm_lastTimestamp]; omega)
    rw [hstep.1, uhm_lastTimestamp]
  · have hstep := store_prices_preserves (Prices.update_history_mask st ps ts) update ts ps
      (by rw [uhm_lastTimestamp]; omega)
    rw [hstep.2]
    exact uhm_history_nogap st ps ts (fun _ hlt => absurd hlt (by omega))

/-- C4 witness: with one registered asset, resolution 500 ms, ledger time
3000 ms and stored last timestamp 2000 ms, an accepted update at the older
timestamp 1000 ms keeps the last-timestamp marker at 2000 while folding the
update's bit into the history window once. -/
theorem c4_witness :
    (1000 : Nat) < newerLastState.lastTimestamp ∧
    (∃ st', PriceOracle.set_price newerLastState singleAssetUpdate 1000 = .accepted st' ∧
      st'.lastTimestamp = newerLastState.lastTimestamp ∧
      st'.history = Mapping.update_history_mask newerLastState.history [7]) :=
  ⟨by decide,
   c4_out_of_order newerLastState singleAssetUpdate 1000 [7] (by decide) (by decide)
     (by decide) (by decide) (by decide) (by decide) (by decide)⟩

set_option maxRecDepth 16384 in
/-- C1 counterexample: after a single update giving nonzero prices to assets
0 and 1, a lookback query `check(window, 1, 256)` — an offset the claim says
must always answer `false` — answers `true`: the `u32` byte-offset
computation wraps around and aliases asset 0's newest-period bit. -/
theorem c1_stale_true :
    Mapping.check_history_updated
      (List.foldl Mapping.update_history_mask [] [[5, 7]]) 1 256 = true := by
  decide

/-- C1 (amended): for update sequences carrying one non-negative price per
registered asset (at most 1000 assets), the bitmask round-trip holds for
every lookback `k ≤ 255`: `check` answers `true` exactly when the asset had a
nonzero price in the `k`-th update from the end; for `k ≥ 256` the `u32`
offset computation can wrap and alias another asset's window (see the
counterexample), but the read path `retrieve_asset_price_data` independently
guards the period offset and reports not-found whenever the requested period
lies more than 255 periods back, so queries never observe stale data. -/
theorem c1_history_roundtrip (calls : List (List Int)) (n : Nat)
    (hcall : ∀ us ∈ calls, us.length = n)
    (hpos : ∀ us ∈ calls, ∀ p ∈ us, 0 ≤ p)
    (hcap : n ≤ 1000) (i k : Nat) (hi : i < n) (hk : k ≤ 255) :
    (Mapping.check_history_updated (List.foldl Mapping.update_history_mask [] calls) i k =
        true ↔
      (k < calls.length ∧ (calls.getD (calls.length - 1 - k) []).getD i 0 ≠ 0))
    ∧ (∀ (st : OracleState) (asset ts : Nat),
        Protocol.get_protocol_version st = 2 → ts ≤ st.lastTimestamp →
        255 < (st.lastTimestamp - ts) / st.resolution →
        (Prices.retrieve_asset_price_data st asset ts).1 = none) := by
  constructor
  · have hU : Mapping.U32_LIMIT = 4294967296 := by norm_num [Mapping.U32_LIMIT]
    rw [Mapping.wsSpec_blocks calls n hcall,
      Mapping.check_history_updated_blocks (Mapping.wsSpec calls) i k hk (by omega),
      Mapping.testBit_wsSpec calls n hcall i k hk, decide_eq_true_eq]
    constructor
    · rintro ⟨hk1, hp⟩
      exact ⟨hk1, hp.ne'⟩
    · rintro ⟨hk1, hne⟩
      refine ⟨hk1, ?_⟩
      have hj : calls.length - 1 - k < calls.length := by omega
      have hmem : calls.getD (calls.length - 1 - k) [] ∈ calls := by
        rw [List.getD_eq_getElem _ _ hj]
        exact List.getElem_mem hj
      have hlen := hcall _ hmem
      have hilt : i < (calls.getD (calls.length - 1 - k) []).length := by omega
      have hmemp : (calls.getD (calls.length - 1 - k) []).getD i 0 ∈
          calls.getD (calls.length - 1 - k) [] := by
        rw [List.getD_eq_getElem _ _ hilt]
        exact List.getElem_mem hilt
      have hge := hpos _ hmem _ hmemp
      omega
  · intro st asset ts hver hle hgt
    have hProt : Protocol.at_latest_protocol_version st = (true, st) := by
      unfold Protocol.at_latest_protocol_version
      rw [hver]
      simp [Protocol.CURRENT_PROTOCOL]
    have hlt : ts < st.lastTimestamp := by
      by_contra hcon
      have heq : st.lastTimestamp = ts := by omega
      rw [heq] at hgt
      simp at hgt
    unfold Prices.retrieve_asset_price_data
    rw [hProt]
    simp [Prices.get_last_timestamp, hlt, hgt, Nat.not_lt.mpr hle]

set_option maxRecDepth 16384 in
/-- C1 witness: with one registered asset and the update sequence
`[[5], [0]]`, the round-trip reports `true` at lookback 1 (the nonzero price
two updates ago, one period back). -/
theorem c1_witness :
    ((∀ us ∈ [[(5 : Int)], [0]], us.length = 1) ∧
      (∀ us ∈ [[(5 : Int)], [0]], ∀ p ∈ us, 0 ≤ p) ∧ (1 : Nat) ≤ 1000 ∧
      (0 : Nat) < 1 ∧ (1 : Nat) ≤ 255) ∧
    Mapping.check_history_updated
      (List.foldl Mapping.update_history_mask [] [[(5 : Int)], [0]]) 0 1 = true :=
  ⟨⟨by decide, by decide, by decide, by decide, by decide⟩,
   (c1_history_roundtrip [[5], [0]] 1 (by decide) (by decide) (by decide) 0 1 (by decide)
     (by decide)).1.mpr ⟨by decide, by decide⟩⟩
